import Mathlib

/-!
# Verification of the sled-backed graph datastore managers

Shallow embedding of `src/managers.rs` of the indradb sled datastore.

Modelling conventions:

* The key codec (`util::build` / `util::read_*`) is order-preserving and
  injective (every variable-length component is length-prefixed, UUIDs and
  datetimes are fixed-width big-endian).  Lexicographic byte order of two
  encoded keys therefore equals lexicographic order of their component
  tuples, with the `Type` component ordered by (length, bytes).  We model
  keys directly as component tuples: UUIDs, Types, datetimes, property
  names and JSON values become `Nat`s (each standing for its encoded form,
  with `Nat` order standing for encoded-byte order; `MIN_DATETIME` is the
  minimum representable datetime, i.e. `0` in the model).
* A sled `Tree` is an ordered key-value map; we model it as an
  association list sorted strictly by key.  `tree.range(low..)` keeps the
  keys `≥ low` in ascending order and `tree.scan_prefix(p)` the keys with
  structural prefix `p`; on a sorted list both are `List.filter`.
* `for` loops over iterators are modelled by folding over the list of
  items the iterator yields.  In every loop of `managers.rs` the body
  removes only the row the loop is currently visiting (never a row the
  live iterator has yet to reach), so folding over a snapshot taken at
  loop entry is equivalent to the live sled iterator.
-/

/-- UUIDs, modelled as naturals; `Nat` order models the byte order of the
16-byte big-endian encoding. -/
abbrev Uuid := Nat

/-- Edge/vertex types, modelled as naturals; `Nat` order models the byte
order of the length-prefixed encoding employed by the key codec. -/
abbrev Typ := Nat

/-- Datetimes, modelled as naturals standing for the order-preserving
8-byte big-endian encoding of nanosecond timestamps. -/
abbrev DT := Nat

/-- Opaque JSON property values. -/
abbrev Json := Nat

/-- Key of the `vertex_properties` tree: `(vertex id, property name)`. -/
abbrev K2 := Nat × Nat

/-- Key of the `edges` tree: `(outbound id, type, inbound id)`. -/
abbrev K3 := Nat × Nat × Nat

/-- Key of the `edge_ranges`, `reversed_edge_ranges` and `edge_properties`
trees: four components. -/
abbrev K4 := Nat × Nat × Nat × Nat

/-- Lexicographic strict order on two-component keys (byte order of the
concatenated encodings). -/
def ltK2 (x y : K2) : Prop :=
  x.1 < y.1 ∨ (x.1 = y.1 ∧ x.2 < y.2)

/-- Lexicographic strict order on three-component keys. -/
def ltK3 (x y : K3) : Prop :=
  x.1 < y.1 ∨ (x.1 = y.1 ∧ ltK2 x.2 y.2)

/-- Lexicographic strict order on four-component keys. -/
def ltK4 (x y : K4) : Prop :=
  x.1 < y.1 ∨ (x.1 = y.1 ∧ ltK3 x.2 y.2)

instance : DecidableRel ltK2 := fun x y => by
  unfold ltK2; exact inferInstance

instance : DecidableRel ltK3 := fun x y => by
  unfold ltK3; exact inferInstance

instance : DecidableRel ltK4 := fun x y => by
  unfold ltK4; exact inferInstance

section KVDefs

variable {κ ν : Type} [DecidableEq κ]

variable (lt : κ → κ → Prop) [DecidableRel lt]

/-- Value stored under key `k`, i.e. `tree.get(k)`. -/
def kvGet (k : κ) : List (κ × ν) → Option ν
  | [] => none
  | p :: rest => if p.1 = k then some p.2 else kvGet k rest

/-- `tree.remove(k)`: drop the row keyed `k`. -/
def kvRemove (k : κ) (l : List (κ × ν)) : List (κ × ν) :=
  l.filter (fun p => decide (p.1 ≠ k))

/-- `tree.insert(k, v)`: write the row keyed `k`, keeping the list sorted
by the key order `lt`. -/
def kvInsert (k : κ) (v : ν) : List (κ × ν) → List (κ × ν)
  | [] => [(k, v)]
  | q :: rest =>
    if lt k q.1 then (k, v) :: q :: rest
    else if k = q.1 then (k, v) :: rest
    else q :: kvInsert k v rest

/-- A tree is well formed when its rows are strictly sorted by key. -/
def TreeSorted (l : List (κ × ν)) : Prop :=
  List.Pairwise (fun p q => lt p.1 q.1) l

instance (l : List (κ × ν)) : Decidable (TreeSorted lt l) := by
  unfold TreeSorted; exact inferInstance

end KVDefs

/-- The minimum representable datetime (`chrono`'s `MIN_DATETIME`); in the
order-preserving encoding it is the least element. -/
def MIN_DATETIME : DT := 0

/-- The sentinel for the maximum representable datetime
(`util::MAX_DATETIME`). -/
def MAX_DATETIME : DT := 2 ^ 63 - 1

/-- The six sled trees of the datastore (`SledHolder`): the default tree
holds vertices, plus `edges`, `edge_ranges`, `reversed_edge_ranges`,
`vertex_properties` and `edge_properties`. -/
structure SledHolder where
  db : List (Uuid × Typ)
  edges : List (K3 × DT)
  edge_ranges : List (K4 × Unit)
  reversed_edge_ranges : List (K4 × Unit)
  vertex_properties : List (K2 × Json)
  edge_properties : List (K4 × Json)
deriving DecidableEq, Repr

/-- A store is well formed when each tree is strictly sorted by its key
order, as a sled B-tree is. -/
def WF (s : SledHolder) : Prop :=
  TreeSorted (· < ·) s.db ∧ TreeSorted ltK3 s.edges ∧
  TreeSorted ltK4 s.edge_ranges ∧ TreeSorted ltK4 s.reversed_edge_ranges ∧
  TreeSorted ltK2 s.vertex_properties ∧ TreeSorted ltK4 s.edge_properties

instance (s : SledHolder) : Decidable (WF s) := by
  unfold WF; exact inferInstance

/-- `VertexManager::key`. -/
def VertexManager.key (id : Uuid) : Uuid := id

/-- `VertexManager::exists`: point lookup, `is_some` of the row. -/
def VertexManager.exists_ (s : SledHolder) (id : Uuid) : Bool :=
  (kvGet (VertexManager.key id) s.db).isSome

/-- `VertexManager::get`: read and decode the vertex type. -/
def VertexManager.get (s : SledHolder) (id : Uuid) : Option Typ :=
  kvGet (VertexManager.key id) s.db

/-- `VertexManager::create`: unconditional put. -/
def VertexManager.create (s : SledHolder) (id : Uuid) (t : Typ) : SledHolder :=
  { s with db := kvInsert (· < ·) (VertexManager.key id) t s.db }

/-- `EdgeRangeManager::key`. -/
def EdgeRangeManager.key (first_id : Uuid) (t : Typ) (update_datetime : DT)
    (second_id : Uuid) : K4 :=
  (first_id, t, update_datetime, second_id)

/-- `EdgeRangeManager::set`: point put of an empty-valued index row. -/
def EdgeRangeManager.set (tr : List (K4 × Unit)) (first_id : Uuid) (t : Typ)
    (d : DT) (second_id : Uuid) : List (K4 × Unit) :=
  kvInsert ltK4 (EdgeRangeManager.key first_id t d second_id) () tr

/-- `EdgeRangeManager::delete`: point remove of an index row. -/
def EdgeRangeManager.delete (tr : List (K4 × Unit)) (first_id : Uuid) (t : Typ)
    (d : DT) (second_id : Uuid) : List (K4 × Unit) :=
  kvRemove (EdgeRangeManager.key first_id t d second_id) tr

/-- `EdgeRangeManager::iterate`: `take_while_prefixed` over the raw
iterator, then decode each key. -/
def EdgeRangeManager.iterate (iterator : List (K4 × Unit)) (pre : K4 → Bool) :
    List K4 :=
  (iterator.takeWhile (fun p => pre p.1)).map (·.1)

/-- Byte comparison of an encoded four-component key against the encoded
three-component seek key `(id, t, h)` used by `tree.range(low_key..)`: the
key is `≥ low_key` iff its first three components are lexicographically
`≥ (id, t, h)` (when they are equal the full key strictly extends
`low_key`, hence is greater). -/
def seekK3 (id : Uuid) (t : Typ) (h : DT) (k : K4) : Prop :=
  ltK3 (id, t, h) (k.1, k.2.1, k.2.2.1) ∨ (id, t, h) = (k.1, k.2.1, k.2.2.1)

instance (id : Uuid) (t : Typ) (h : DT) (k : K4) : Decidable (seekK3 id t h k) := by
  unfold seekK3; exact inferInstance

/-- `EdgeRangeManager::iterate_for_range`: the central traversal
primitive.  With `t = some t` it seeks to `(id, t, high)` (defaulting
`high` to `MAX_DATETIME`) and takes rows while the key has prefix
`(id, t)`; with `t = none` it seeks to `id`, takes rows while the key has
prefix `id`, and — when `high` is given — post-filters the decoded rows
to `update_datetime ≤ high`. -/
def EdgeRangeManager.iterateForRange (tr : List (K4 × Unit)) (id : Uuid)
    (t : Option Typ) (high : Option DT) : List K4 :=
  match t with
  | some t =>
    let h := high.getD MAX_DATETIME
    EdgeRangeManager.iterate (tr.filter (fun p => decide (seekK3 id t h p.1)))
      (fun k => decide (k.1 = id ∧ k.2.1 = t))
  | none =>
    let mapped :=
      EdgeRangeManager.iterate (tr.filter (fun p => decide (id ≤ p.1.1)))
        (fun k => decide (k.1 = id))
    match high with
    | some h => mapped.filter (fun k => decide (k.2.2.1 ≤ h))
    | none => mapped

/-- `EdgeRangeManager::iterate_for_owner`: prefix scan on `id`, decoding
every row. -/
def EdgeRangeManager.iterateForOwner (tr : List (K4 × Unit)) (id : Uuid) :
    List K4 :=
  EdgeRangeManager.iterate (tr.filter (fun p => decide (p.1.1 = id)))
    (fun k => decide (k.1 = id))

/-- `VertexPropertyManager::key`. -/
def VertexPropertyManager.key (vertex_id : Uuid) (name : Nat) : K2 :=
  (vertex_id, name)

/-- `VertexPropertyManager::iterate_for_owner`: prefix scan on the vertex
id, decoding key and value. -/
def VertexPropertyManager.iterateForOwner (tr : List (K2 × Json))
    (vertex_id : Uuid) : List (K2 × Json) :=
  tr.filter (fun p => decide (p.1.1 = vertex_id))

/-- `VertexPropertyManager::delete`. -/
def VertexPropertyManager.delete (tr : List (K2 × Json)) (vertex_id : Uuid)
    (name : Nat) : List (K2 × Json) :=
  kvRemove (VertexPropertyManager.key vertex_id name) tr

/-- `EdgePropertyManager::key`. -/
def EdgePropertyManager.key (outbound_id : Uuid) (t : Typ) (inbound_id : Uuid)
    (name : Nat) : K4 :=
  (outbound_id, t, inbound_id, name)

/-- `EdgePropertyManager::iterate_for_owner`: prefix scan on
`(outbound_id, t, inbound_id)`, decoding each row's key. -/
def EdgePropertyManager.iterateForOwner (tr : List (K4 × Json))
    (outbound_id : Uuid) (t : Typ) (inbound_id : Uuid) : List K4 :=
  (tr.filter (fun p =>
    decide (p.1.1 = outbound_id ∧ p.1.2.1 = t ∧ p.1.2.2.1 = inbound_id))).map (·.1)

/-- `EdgePropertyManager::delete`. -/
def EdgePropertyManager.delete (tr : List (K4 × Json)) (outbound_id : Uuid)
    (t : Typ) (inbound_id : Uuid) (name : Nat) : List (K4 × Json) :=
  kvRemove (EdgePropertyManager.key outbound_id t inbound_id name) tr

/-- `EdgeManager::key`. -/
def EdgeManager.key (outbound_id : Uuid) (t : Typ) (inbound_id : Uuid) : K3 :=
  (outbound_id, t, inbound_id)

/-- `EdgeManager::get`: current `update_datetime` of an edge, if any. -/
def EdgeManager.get (s : SledHolder) (outbound_id : Uuid) (t : Typ)
    (inbound_id : Uuid) : Option DT :=
  kvGet (EdgeManager.key outbound_id t inbound_id) s.edges

/-- `EdgeManager::set`: if a prior `update_datetime` exists, delete the
matching forward and reversed index rows; then write the payload and
insert both new index rows. -/
def EdgeManager.set (s : SledHolder) (outbound_id : Uuid) (t : Typ)
    (inbound_id : Uuid) (new_update_datetime : DT) : SledHolder :=
  let s1 :=
    match EdgeManager.get s outbound_id t inbound_id with
    | some update_datetime =>
      { s with
        edge_ranges :=
          EdgeRangeManager.delete s.edge_ranges outbound_id t update_datetime inbound_id,
        reversed_edge_ranges :=
          EdgeRangeManager.delete s.reversed_edge_ranges inbound_id t update_datetime outbound_id }
    | none => s
  let s2 := { s1 with
    edges := kvInsert ltK3 (EdgeManager.key outbound_id t inbound_id)
      new_update_datetime s1.edges }
  let s3 := { s2 with
    edge_ranges :=
      EdgeRangeManager.set s2.edge_ranges outbound_id t new_update_datetime inbound_id }
  { s3 with
    reversed_edge_ranges :=
      EdgeRangeManager.set s3.reversed_edge_ranges inbound_id t new_update_datetime outbound_id }

/-- `EdgeManager::delete`: remove the edge row, both index rows, then scan
the edge-property prefix `(o, t, i)` and delete every property. -/
def EdgeManager.delete (s : SledHolder) (outbound_id : Uuid) (t : Typ)
    (inbound_id : Uuid) (update_datetime : DT) : SledHolder :=
  let s1 := { s with
    edges := kvRemove (EdgeManager.key outbound_id t inbound_id) s.edges }
  let s2 := { s1 with
    edge_ranges :=
      EdgeRangeManager.delete s1.edge_ranges outbound_id t update_datetime inbound_id }
  let s3 := { s2 with
    reversed_edge_ranges :=
      EdgeRangeManager.delete s2.reversed_edge_ranges inbound_id t update_datetime outbound_id }
  let items := EdgePropertyManager.iterateForOwner s3.edge_properties outbound_id t inbound_id
  items.foldl
    (fun s' k =>
      { s' with
        edge_properties :=
          EdgePropertyManager.delete s'.edge_properties k.1 k.2.1 k.2.2.1 k.2.2.2 })
    s3

/-- `VertexManager::delete`: the cascade protocol — remove the vertex row,
delete every vertex property with prefix `id`, then for every forward
edge-range row `(id, t, dt, other)` call `EdgeManager::delete(id, t,
other, dt)`, and for every reversed edge-range row `(id, t, dt, other)`
call `EdgeManager::delete(other, t, id, dt)`. -/
def VertexManager.delete (s : SledHolder) (id : Uuid) : SledHolder :=
  let s1 := { s with db := kvRemove (VertexManager.key id) s.db }
  let vpItems := VertexPropertyManager.iterateForOwner s1.vertex_properties id
  let s2 := vpItems.foldl
    (fun s' p =>
      { s' with
        vertex_properties :=
          VertexPropertyManager.delete s'.vertex_properties p.1.1 p.1.2 })
    s1
  let erItems := EdgeRangeManager.iterateForOwner s2.edge_ranges id
  let s3 := erItems.foldl
    (fun s' k => EdgeManager.delete s' k.1 k.2.1 k.2.2.2 k.2.2.1) s2
  let rItems := EdgeRangeManager.iterateForOwner s3.reversed_edge_ranges id
  rItems.foldl
    (fun s' k => EdgeManager.delete s' k.2.2.2 k.2.1 k.1 k.2.2.1) s3

/-- Step 1 of the cascade of `VertexManager::delete`: remove the vertex row. -/
def delStep1 (s : SledHolder) (v : Nat) : SledHolder :=
  { s with db := kvRemove (VertexManager.key v) s.db }

/-- Step 2: delete every vertex property with prefix `v`. -/
def delStep2 (s : SledHolder) (v : Nat) : SledHolder :=
  (VertexPropertyManager.iterateForOwner s.vertex_properties v).foldl
    (fun s' p =>
      { s' with
        vertex_properties :=
          VertexPropertyManager.delete s'.vertex_properties p.1.1 p.1.2 })
    s

/-- Step 3: cascade `EdgeManager::delete` over the forward edge-range rows
of owner `v`. -/
def delStep3 (s : SledHolder) (v : Nat) : SledHolder :=
  (EdgeRangeManager.iterateForOwner s.edge_ranges v).foldl
    (fun s' k => EdgeManager.delete s' k.1 k.2.1 k.2.2.2 k.2.2.1) s

/-- Step 4: cascade `EdgeManager::delete` over the reversed edge-range
rows of owner `v`, with the endpoints flipped back. -/
def delStep4 (s : SledHolder) (v : Nat) : SledHolder :=
  (EdgeRangeManager.iterateForOwner s.reversed_edge_ranges v).foldl
    (fun s' k => EdgeManager.delete s' k.2.2.2 k.2.1 k.1 k.2.2.1) s

/-- The cross-entity invariants of the data model restricted to the
edge-index trees: every forward and reversed index row matches the stored
edge payload (so no index row is stale or orphaned), every stored edge has
both of its index rows, and every edge-property row belongs to a stored
edge. -/
def RangesInv (s : SledHolder) : Prop :=
  (∀ p ∈ s.edge_ranges,
    kvGet ((p.1.1, p.1.2.1, p.1.2.2.2) : K3) s.edges = some p.1.2.2.1) ∧
  (∀ p ∈ s.reversed_edge_ranges,
    kvGet ((p.1.2.2.2, p.1.2.1, p.1.1) : K3) s.edges = some p.1.2.2.1) ∧
  (∀ e ∈ s.edges,
    ((e.1.1, e.1.2.1, e.2, e.1.2.2), ()) ∈ s.edge_ranges ∧
    ((e.1.2.2, e.1.2.1, e.2, e.1.1), ()) ∈ s.reversed_edge_ranges) ∧
  (∀ p ∈ s.edge_properties,
    (kvGet ((p.1.1, p.1.2.1, p.1.2.2.1) : K3) s.edges).isSome = true)

instance (s : SledHolder) : Decidable (RangesInv s) := by
  unfold RangesInv; exact inferInstance

/-- The store `s` with every row whose key mentions the UUID `v` in a
UUID position removed, and every other row untouched. -/
def pruneV (s : SledHolder) (v : Nat) : SledHolder :=
  { db := s.db.filter (fun p => decide (p.1 ≠ v)),
    edges := s.edges.filter (fun p => decide (p.1.1 ≠ v ∧ p.1.2.2 ≠ v)),
    edge_ranges :=
      s.edge_ranges.filter (fun p => decide (p.1.1 ≠ v ∧ p.1.2.2.2 ≠ v)),
    reversed_edge_ranges :=
      s.reversed_edge_ranges.filter (fun p => decide (p.1.1 ≠ v ∧ p.1.2.2.2 ≠ v)),
    vertex_properties :=
      s.vertex_properties.filter (fun p => decide (p.1.1 ≠ v)),
    edge_properties :=
      s.edge_properties.filter (fun p => decide (p.1.1 ≠ v ∧ p.1.2.2.1 ≠ v)) }

/-- A schedule of KV-operation outcomes: `sch n = some e` means the
`n`-th underlying KV operation of the call (counting point writes and
iterator item fetches) reports the sled error `e`; `none` means it
succeeds. -/
abbrev Sched := Nat → Option Nat

/-- Instrumented machine state for the fallible semantics: the store plus
the count of KV operations attempted so far. -/
structure MState where
  hold : SledHolder
  ctr : Nat
deriving DecidableEq, Repr

/-- One fallible KV write (`map_err(tree.insert/remove(..))?`): consult
the schedule; on success apply `f` to the store.  The store is the real
sled database, so it is never rolled back by a later failure. -/
def kvOp (sch : Sched) (f : SledHolder → SledHolder) (st : MState) :
    Except Nat Unit × MState :=
  match sch st.ctr with
  | some e => (.error e, { st with ctr := st.ctr + 1 })
  | none => (.ok (), { hold := f st.hold, ctr := st.ctr + 1 })

/-- Sequencing of two fallible steps, as the `?` operator does: the
second step runs only if the first succeeded. -/
def andThen (x : Except Nat Unit × MState)
    (g : MState → Except Nat Unit × MState) : Except Nat Unit × MState :=
  match x with
  | (.error e, st) => (.error e, st)
  | (.ok _, st) => g st

/-- One iterator item fetch whose `Err` is propagated by `item?`
(the property-scan loops). -/
def fetchProp (sch : Sched) (g : MState → Except Nat Unit × MState)
    (st : MState) : Except Nat Unit × MState :=
  match sch st.ctr with
  | some e => (.error e, { st with ctr := st.ctr + 1 })
  | none => g { st with ctr := st.ctr + 1 }

/-- One iterator item fetch inside `take_while_prefixed`, whose predicate
returns `false` on an `Err` item: the error ends the scan silently with
`Ok` (the edge-range cascade loops). -/
def fetchSwallow (sch : Sched) (g : MState → Except Nat Unit × MState)
    (st : MState) : Except Nat Unit × MState :=
  match sch st.ctr with
  | some _ => (.ok (), { st with ctr := st.ctr + 1 })
  | none => g { st with ctr := st.ctr + 1 }

/-- The edge-property loop of `EdgeManager::delete`: items are fetched
lazily and an `Err` item is propagated by `item?`. -/
def epLoopM (sch : Sched) : List K4 → MState → Except Nat Unit × MState
  | [], st => (.ok (), st)
  | k :: rest, st =>
    fetchProp sch
      (fun st1 =>
        andThen
          (kvOp sch
            (fun h =>
              { h with
                edge_properties :=
                  EdgePropertyManager.delete h.edge_properties k.1 k.2.1 k.2.2.1 k.2.2.2 })
            st1)
          (epLoopM sch rest))
      st

/-- Fallible `EdgeManager::delete`: three point removes, then the
edge-property cascade loop over the rows with prefix `(o, t, i)`. -/
def EdgeManager.deleteM (sch : Sched) (o t i d : Nat) (st : MState) :
    Except Nat Unit × MState :=
  andThen
    (kvOp sch
      (fun h => { h with edges := kvRemove (EdgeManager.key o t i) h.edges }) st)
    (fun st1 =>
      andThen
        (kvOp sch
          (fun h =>
            { h with edge_ranges := EdgeRangeManager.delete h.edge_ranges o t d i })
          st1)
        (fun st2 =>
          andThen
            (kvOp sch
              (fun h =>
                { h with
                  reversed_edge_ranges :=
                    EdgeRangeManager.delete h.reversed_edge_ranges i t d o })
              st2)
            (fun st3 =>
              epLoopM sch
                (EdgePropertyManager.iterateForOwner st3.hold.edge_properties o t i)
                st3)))

/-- The vertex-property loop of `VertexManager::delete`: iterator errors
are propagated by `item?`. -/
def vpLoopM (sch : Sched) : List (K2 × Json) → MState → Except Nat Unit × MState
  | [], st => (.ok (), st)
  | p :: rest, st =>
    fetchProp sch
      (fun st1 =>
        andThen
          (kvOp sch
            (fun h =>
              { h with
                vertex_properties :=
                  VertexPropertyManager.delete h.vertex_properties p.1.1 p.1.2 })
            st1)
          (vpLoopM sch rest))
      st

/-- An edge-range cascade loop of `VertexManager::delete`: the iterator is
wrapped in `take_while_prefixed`, so an iterator error silently terminates
the scan with `Ok`, while errors of the nested `EdgeManager::delete` are
propagated by `?`. -/
def erLoopM (sch : Sched) (call : K4 → Nat × Nat × Nat × Nat) :
    List K4 → MState → Except Nat Unit × MState
  | [], st => (.ok (), st)
  | k :: rest, st =>
    fetchSwallow sch
      (fun st1 =>
        andThen
          (EdgeManager.deleteM sch (call k).1 (call k).2.1 (call k).2.2.1
            (call k).2.2.2 st1)
          (erLoopM sch call rest))
      st

/-- Fallible `VertexManager::delete`: the cascade protocol under the
instrumented semantics. -/
def VertexManager.deleteM (sch : Sched) (id : Nat) (st : MState) :
    Except Nat Unit × MState :=
  andThen
    (kvOp sch
      (fun h => { h with db := kvRemove (VertexManager.key id) h.db }) st)
    (fun st1 =>
      andThen
        (vpLoopM sch
          (VertexPropertyManager.iterateForOwner st1.hold.vertex_properties id) st1)
        (fun st2 =>
          andThen
            (erLoopM sch (fun k => (k.1, k.2.1, k.2.2.2, k.2.2.1))
              (EdgeRangeManager.iterateForOwner st2.hold.edge_ranges id) st2)
            (fun st3 =>
              erLoopM sch (fun k => (k.2.2.2, k.2.1, k.1, k.2.2.1))
                (EdgeRangeManager.iterateForOwner st3.hold.reversed_edge_ranges id) st3)))

/-- Error discipline: when the call returns an error, the error is the one
reported by the last-attempted underlying operation, and no operation
after it was attempted. -/
def ErrSpec (sch : Sched) (F : MState → Except Nat Unit × MState) : Prop :=
  ∀ st e st', F st = (.error e, st') →
    st.ctr < st'.ctr ∧ sch (st'.ctr - 1) = some e

/-- The operation counter never decreases. -/
def CtrMono (F : MState → Except Nat Unit × MState) : Prop :=
  ∀ st r st', F st = (r, st') → st.ctr ≤ st'.ctr

/-- The call leaves the tree selected by `π` untouched. -/
def Pres {α : Type} (π : SledHolder → α) (F : MState → Except Nat Unit × MState) : Prop :=
  ∀ st r st', F st = (r, st') → π st'.hold = π st.hold

/-- A store holding a stray forward index row `(0,0,9,1)` with no matching
edge payload. -/
def strayStore : SledHolder :=
  { db := [], edges := [], edge_ranges := [(((0, 0, 9, 1) : K4), ())],
    reversed_edge_ranges := [], vertex_properties := [], edge_properties := [] }

/-- A store holding the single edge `1 -[2]-> 3` at datetime `4`, with
both index rows. -/
def oneEdgeStore : SledHolder :=
  { db := [(1, 0), (3, 0)],
    edges := [(((1, 2, 3) : K3), 4)],
    edge_ranges := [(((1, 2, 4, 3) : K4), ())],
    reversed_edge_ranges := [(((3, 2, 4, 1) : K4), ())],
    vertex_properties := [], edge_properties := [] }

/-- A store holding vertices `1`, `2`, the edge `1 -[0]-> 2` at datetime
`5` with both index rows, a vertex property on `1` and an edge property on
the edge; it satisfies the cross-entity invariants. -/
def cascadeStore : SledHolder :=
  { db := [(1, 0), (2, 0)],
    edges := [(((1, 0, 2) : K3), 5)],
    edge_ranges := [(((1, 0, 5, 2) : K4), ())],
    reversed_edge_ranges := [(((2, 0, 5, 1) : K4), ())],
    vertex_properties := [((1, 7), 3)],
    edge_properties := [(((1, 0, 2, 9) : K4), 4)] }

/-- A sorted two-row edge-range tree: owner `1`, type `5`, datetimes `3`
and `7`. -/
def rangeTree : List (K4 × Unit) :=
  [(((1, 5, 3, 2) : K4), ()), (((1, 5, 7, 2) : K4), ())]

/-- Store of the error-handling scenario: vertex `7` with one outgoing
edge to `8`. -/
def errStore : SledHolder :=
  { db := [(7, 0)], edges := [(((7, 0, 8) : K3), 1)],
    edge_ranges := [(((7, 0, 1, 8) : K4), ())],
    reversed_edge_ranges := [(((8, 0, 1, 7) : K4), ())],
    vertex_properties := [], edge_properties := [] }

/-- Schedule failing the very first KV operation with error `42`. -/
def schFirst : Sched := fun n => if n = 0 then some 42 else none

/-- Schedule failing operation `1` — the first forward edge-range
iterator fetch of `VertexManager::delete` on `errStore` — with error
`99`. -/
def schIter : Sched := fun n => if n = 1 then some 99 else none

section KVThms

variable {κ ν : Type} [DecidableEq κ]

variable (lt : κ → κ → Prop) [DecidableRel lt]

theorem kvRemove_nil (k : κ) : kvRemove k ([] : List (κ × ν)) = [] := rfl

theorem kvRemove_cons_self {k : κ} {v : ν} (rest : List (κ × ν)) :
    kvRemove k ((k, v) :: rest) = kvRemove k rest := by
  simp [kvRemove, List.filter_cons]

theorem kvRemove_cons_eq {q : κ × ν} {k : κ} (h : q.1 = k) (rest : List (κ × ν)) :
    kvRemove k (q :: rest) = kvRemove k rest := by
  simp [kvRemove, List.filter_cons, h]

theorem kvRemove_cons_ne {q : κ × ν} {k : κ} (h : q.1 ≠ k) (rest : List (κ × ν)) :
    kvRemove k (q :: rest) = q :: kvRemove k rest := by
  simp [kvRemove, List.filter_cons, h]

theorem kvGet_kvInsert_self (k : κ) (v : ν) :
    ∀ l : List (κ × ν), kvGet k (kvInsert lt k v l) = some v := by
  intro l
  induction l with
  | nil => simp [kvInsert, kvGet]
  | cons q rest ih =>
    by_cases h1 : lt k q.1
    · simp [kvInsert, h1, kvGet]
    · by_cases h2 : k = q.1
      · subst h2
        simp [kvInsert, h1, kvGet]
      · simp only [kvInsert, if_neg h1, if_neg h2, kvGet]
        rw [if_neg (fun h => h2 h.symm)]
        exact ih

theorem kvGet_kvInsert_ne {k k' : κ} (h : k' ≠ k) (v : ν) :
    ∀ l : List (κ × ν), kvGet k' (kvInsert lt k v l) = kvGet k' l := by
  intro l
  induction l with
  | nil => simp [kvInsert, kvGet, Ne.symm h]
  | cons q rest ih =>
    by_cases h1 : lt k q.1
    · simp [kvInsert, h1, kvGet, Ne.symm h]
    · by_cases h2 : k = q.1
      · subst h2
        simp [kvInsert, h1, kvGet, Ne.symm h]
      · simp only [kvInsert, if_neg h1, if_neg h2, kvGet, ih]

theorem kvGet_kvRemove_self (k : κ) (l : List (κ × ν)) :
    kvGet k (kvRemove k l) = none := by
  induction l with
  | nil => rfl
  | cons q rest ih =>
    by_cases h : q.1 = k
    · simpa [kvRemove, h] using ih
    · simpa [kvRemove, h, kvGet] using ih

theorem kvGet_kvRemove_ne {k k' : κ} (h : k' ≠ k) (l : List (κ × ν)) :
    kvGet k' (kvRemove k l) = kvGet k' l := by
  induction l with
  | nil => rfl
  | cons q rest ih =>
    by_cases hq : q.1 = k
    · rw [kvRemove_cons_eq hq, ih, kvGet, if_neg (hq ▸ Ne.symm h)]
    · rw [kvRemove_cons_ne hq]
      by_cases hq' : q.1 = k'
      · simp [kvGet, hq']
      · simp [kvGet, hq', ih]

theorem mem_kvRemove {p : κ × ν} {k : κ} {l : List (κ × ν)} :
    p ∈ kvRemove k l ↔ p ∈ l ∧ p.1 ≠ k := by
  simp [kvRemove]

theorem mem_kvInsert_self (k : κ) (v : ν) (l : List (κ × ν)) :
    (k, v) ∈ kvInsert lt k v l := by
  induction l with
  | nil => simp [kvInsert]
  | cons q rest ih =>
    by_cases h1 : lt k q.1
    · simp [kvInsert, h1]
    · by_cases h2 : k = q.1
      · subst h2
        simp [kvInsert, h1]
      · simp only [kvInsert, if_neg h1, if_neg h2, List.mem_cons]
        exact Or.inr ih

theorem of_mem_kvInsert {p : κ × ν} {k : κ} {v : ν} {l : List (κ × ν)} :
    p ∈ kvInsert lt k v l → p = (k, v) ∨ p ∈ l := by
  induction l with
  | nil => simp [kvInsert]
  | cons q rest ih =>
    by_cases h1 : lt k q.1
    · simp only [kvInsert, if_pos h1]
      intro h
      rcases List.mem_cons.mp h with rfl | h
      · exact Or.inl rfl
      · exact Or.inr h
    · by_cases h2 : k = q.1
      · simp only [kvInsert, if_neg h1, if_pos h2]
        intro h
        rcases List.mem_cons.mp h with rfl | h
        · exact Or.inl rfl
        · exact Or.inr (List.mem_cons_of_mem q h)
      · simp only [kvInsert, if_neg h1, if_neg h2]
        intro h
        rcases List.mem_cons.mp h with h | h
        · exact Or.inr (by rw [h]; exact List.mem_cons_self q rest)
        · rcases ih h with h' | h'
          · exact Or.inl h'
          · exact Or.inr (List.mem_cons_of_mem q h')

theorem mem_kvInsert_of_ne {p : κ × ν} {k : κ} {v : ν} {l : List (κ × ν)}
    (hp : p ∈ l) (hne : p.1 ≠ k) : p ∈ kvInsert lt k v l := by
  induction l with
  | nil => cases hp
  | cons q rest ih =>
    by_cases h1 : lt k q.1
    · simp only [kvInsert, if_pos h1, List.mem_cons]
      exact Or.inr (List.mem_cons.mp hp)
    · by_cases h2 : k = q.1
      · rcases List.mem_cons.mp hp with h | h
        · exact absurd (h ▸ h2.symm) hne
        · simp only [kvInsert, if_neg h1, if_pos h2, List.mem_cons]
          exact Or.inr h
      · rcases List.mem_cons.mp hp with h | h
        · simp only [kvInsert, if_neg h1, if_neg h2, List.mem_cons]
          exact Or.inl h
        · simp only [kvInsert, if_neg h1, if_neg h2, List.mem_cons]
          exact Or.inr (ih h)

theorem kvInsert_idem (hirr : ∀ a, ¬ lt a a) (k : κ) (v : ν) (l : List (κ × ν)) :
    kvInsert lt k v (kvInsert lt k v l) = kvInsert lt k v l := by
  induction l with
  | nil => simp [kvInsert, hirr k]
  | cons q rest ih =>
    by_cases h1 : lt k q.1
    · simp [kvInsert, h1, hirr k]
    · by_cases h2 : k = q.1
      · subst h2
        simp [kvInsert, h1]
      · simp only [kvInsert, if_neg h1, if_neg h2, ih]

theorem kvRemove_kvInsert (k : κ) (v : ν) (l : List (κ × ν)) :
    kvRemove k (kvInsert lt k v l) = kvRemove k l := by
  induction l with
  | nil => simp [kvInsert, kvRemove]
  | cons q rest ih =>
    by_cases h1 : lt k q.1
    · rw [kvInsert, if_pos h1, kvRemove_cons_self]
    · by_cases h2 : k = q.1
      · rw [kvInsert, if_neg h1, if_pos h2, kvRemove_cons_self,
          kvRemove_cons_eq h2.symm]
      · have h3 : q.1 ≠ k := fun h => h2 h.symm
        rw [kvInsert, if_neg h1, if_neg h2, kvRemove_cons_ne h3,
          kvRemove_cons_ne h3, ih]

theorem kvRemove_eq_of_not_mem {k : κ} {l : List (κ × ν)}
    (h : ∀ p ∈ l, p.1 ≠ k) : kvRemove k l = l := by
  unfold kvRemove
  rw [List.filter_eq_self]
  intro p hp
  simpa using h p hp

theorem kvInsert_kvRemove_self
    (hirr : ∀ a, ¬ lt a a) (htr : ∀ {a b c}, lt a b → lt b c → lt a c)
    (k : κ) (v : ν) :
    ∀ l : List (κ × ν), TreeSorted lt l →
      kvInsert lt k v (kvRemove k l) = kvInsert lt k v l := by
  intro l
  induction l with
  | nil => intro _; rfl
  | cons q rest ih =>
    rcases q with ⟨a, w⟩
    intro hs
    rcases List.pairwise_cons.mp hs with ⟨hq, hrest⟩
    by_cases h2 : a = k
    · subst h2
      have hqk : ∀ p ∈ rest, lt a p.1 := fun p hp => hq p hp
      have hnr : kvRemove a rest = rest :=
        kvRemove_eq_of_not_mem (fun p hp he => absurd (he ▸ hqk p hp) (hirr a))
      rw [kvRemove_cons_self, hnr]
      have hnl : ¬ lt a a := hirr a
      cases rest with
      | nil => simp [kvInsert, hnl]
      | cons r rs =>
        have hr : lt a r.1 := hqk r (List.mem_cons_self r rs)
        simp [kvInsert, hnl, hr]
    · by_cases h1 : lt k a
      · have hall : ∀ p ∈ (a, w) :: rest, p.1 ≠ k := by
          intro p hp
          rcases List.mem_cons.mp hp with h | hp
          · rw [h]; exact fun he => h2 he
          · intro he
            have hx : lt k p.1 := htr h1 (hq p hp)
            rw [he] at hx
            exact hirr k hx
        rw [kvRemove_eq_of_not_mem hall]
      · have h3 : (a, w).1 ≠ k := h2
        rw [kvRemove_cons_ne h3]
        have h2' : ¬ k = a := fun h => h2 h.symm
        show kvInsert lt k v ((a, w) :: kvRemove k rest) =
          kvInsert lt k v ((a, w) :: rest)
        simp only [kvInsert, if_neg h1, if_neg h2']
        exact congrArg _ (ih hrest)

theorem kvInsert_sorted
    (htr : ∀ {a b c}, lt a b → lt b c → lt a c)
    (htot : ∀ {a b}, ¬ lt a b → a ≠ b → lt b a)
    (k : κ) (v : ν) :
    ∀ l : List (κ × ν), TreeSorted lt l → TreeSorted lt (kvInsert lt k v l) := by
  intro l
  induction l with
  | nil => intro _; simp [kvInsert, TreeSorted]
  | cons q rest ih =>
    intro hs
    rcases List.pairwise_cons.mp hs with ⟨hq, hrest⟩
    unfold TreeSorted at ih hs ⊢
    by_cases h1 : lt k q.1
    · simp only [kvInsert, if_pos h1]
      refine List.pairwise_cons.mpr ⟨?_, hs⟩
      intro p hp
      rcases List.mem_cons.mp hp with h | hp
      · rw [h]; exact h1
      · exact htr h1 (hq p hp)
    · by_cases h2 : k = q.1
      · simp only [kvInsert, if_neg h1, if_pos h2]
        refine List.pairwise_cons.mpr ⟨?_, hrest⟩
        intro p hp
        show lt k p.1
        rw [h2]
        exact hq p hp
      · simp only [kvInsert, if_neg h1, if_neg h2]
        refine List.pairwise_cons.mpr ⟨?_, ih hrest⟩
        intro p hp
        rcases of_mem_kvInsert lt hp with h | hp
        · rw [h]; exact htot h1 h2
        · exact hq p hp

theorem kvRemove_sorted (k : κ) (l : List (κ × ν)) (hs : TreeSorted lt l) :
    TreeSorted lt (kvRemove k l) := by
  exact List.Pairwise.sublist (List.filter_sublist l) hs

theorem kvGet_mem {k : κ} {v : ν} :
    ∀ {l : List (κ × ν)}, kvGet k l = some v → (k, v) ∈ l := by
  intro l
  induction l with
  | nil => intro h; cases h
  | cons q rest ih =>
    rcases q with ⟨a, b⟩
    intro h
    by_cases hq : a = k
    · subst hq
      have he : kvGet a ((a, b) :: rest) = some b := by simp [kvGet]
      rw [he] at h
      injection h with h2
      subst h2
      exact List.mem_cons_self _ _
    · have he : kvGet k ((a, b) :: rest) = kvGet k rest := by simp [kvGet, hq]
      rw [he] at h
      exact List.mem_cons_of_mem _ (ih h)

end KVThms

theorem ltK2_irrefl (x : K2) : ¬ ltK2 x x := by
  simp [ltK2]

theorem ltK3_irrefl (x : K3) : ¬ ltK3 x x := by
  simp [ltK3, ltK2_irrefl x.2]

theorem ltK4_irrefl (x : K4) : ¬ ltK4 x x := by
  simp [ltK4, ltK3_irrefl x.2]

theorem ltK2_trans {x y z : K2} : ltK2 x y → ltK2 y z → ltK2 x z := by
  rcases x with ⟨a, b⟩; rcases y with ⟨c, d⟩; rcases z with ⟨e, f⟩
  simp only [ltK2]; omega

theorem ltK3_trans {x y z : K3} : ltK3 x y → ltK3 y z → ltK3 x z := by
  rcases x with ⟨a, x⟩; rcases y with ⟨c, y⟩; rcases z with ⟨e, z⟩
  simp only [ltK3]
  rintro (h | ⟨rfl, h⟩) (h' | ⟨rfl, h'⟩)
  · exact Or.inl (h.trans h')
  · exact Or.inl h
  · exact Or.inl h'
  · exact Or.inr ⟨rfl, ltK2_trans h h'⟩

theorem ltK4_trans {x y z : K4} : ltK4 x y → ltK4 y z → ltK4 x z := by
  rcases x with ⟨a, x⟩; rcases y with ⟨c, y⟩; rcases z with ⟨e, z⟩
  simp only [ltK4]
  rintro (h | ⟨rfl, h⟩) (h' | ⟨rfl, h'⟩)
  · exact Or.inl (h.trans h')
  · exact Or.inl h
  · exact Or.inl h'
  · exact Or.inr ⟨rfl, ltK3_trans h h'⟩

theorem ltK2_of_not {x y : K2} (h : ¬ ltK2 x y) (hne : x ≠ y) : ltK2 y x := by
  rcases x with ⟨a, b⟩; rcases y with ⟨c, d⟩
  simp only [ltK2] at h ⊢
  simp only [Ne, Prod.mk.injEq] at hne
  omega

theorem ltK3_of_not {x y : K3} (h : ¬ ltK3 x y) (hne : x ≠ y) : ltK3 y x := by
  rcases x with ⟨a, b, c⟩; rcases y with ⟨d, e, f⟩
  simp only [ltK3, ltK2] at h ⊢
  simp only [Ne, Prod.mk.injEq] at hne
  omega

theorem ltK4_of_not {x y : K4} (h : ¬ ltK4 x y) (hne : x ≠ y) : ltK4 y x := by
  rcases x with ⟨a, b, c, d⟩; rcases y with ⟨e, f, g, k⟩
  simp only [ltK4, ltK3, ltK2] at h ⊢
  simp only [Ne, Prod.mk.injEq] at hne
  omega

theorem takeWhile_eq_filter_of_ordered {α : Type} (R : α → α → Prop) (P : α → Bool) :
    ∀ l : List α, List.Pairwise R l →
      (∀ x ∈ l, ∀ y ∈ l, R x y → P y = true → P x = true) →
      l.takeWhile P = l.filter P := by
  intro l
  induction l with
  | nil => intro _ _; rfl
  | cons a l ih =>
    intro hp hcl
    rcases List.pairwise_cons.mp hp with ⟨ha, hl⟩
    by_cases hPa : P a = true
    · rw [List.takeWhile_cons_of_pos hPa, List.filter_cons_of_pos hPa]
      refine congrArg _ (ih hl ?_)
      intro x hx y hy hr hy'
      exact hcl x (List.mem_cons_of_mem a hx) y (List.mem_cons_of_mem a hy) hr hy'
    · rw [List.takeWhile_cons_of_neg hPa, List.filter_cons_of_neg hPa]
      symm
      rw [List.filter_eq_nil]
      intro y hy hPy
      exact hPa (hcl a (List.mem_cons_self a l) y (List.mem_cons_of_mem a hy)
        (ha y hy) hPy)

theorem takeWhile_eq_self_of_all {α : Type} (P : α → Bool) :
    ∀ l : List α, (∀ x ∈ l, P x = true) → l.takeWhile P = l := by
  intro l
  induction l with
  | nil => intro _; rfl
  | cons a l ih =>
    intro h
    rw [List.takeWhile_cons_of_pos (h a (List.mem_cons_self a l))]
    exact congrArg _ (ih (fun x hx => h x (List.mem_cons_of_mem a hx)))

/-- Closed form of `iterate_for_owner`: it yields exactly the keys with
first component `id`, in tree order. -/
theorem iterateForOwner_eq (tr : List (K4 × Unit)) (id : Uuid) :
    EdgeRangeManager.iterateForOwner tr id =
      (tr.filter (fun p => decide (p.1.1 = id))).map (·.1) := by
  unfold EdgeRangeManager.iterateForOwner EdgeRangeManager.iterate
  rw [takeWhile_eq_self_of_all]
  intro x hx
  exact (List.mem_filter.mp hx).2

/-- Closed form of the typed-and-bounded branch of `iterate_for_range` on a
sorted tree: seeking to `(id, t, h)` and taking rows while the key prefix
is `(id, t)` yields exactly the rows with prefix `(id, t)` and
`update_datetime ≥ h`, in ascending key order. -/
theorem iterateForRange_typed_eq (tr : List (K4 × Unit))
    (hs : TreeSorted ltK4 tr) (id t h : Nat) :
    EdgeRangeManager.iterateForRange tr id (some t) (some h) =
      (tr.map (·.1)).filter
        (fun k => decide (k.1 = id ∧ k.2.1 = t ∧ h ≤ k.2.2.1)) := by
  have hstep : EdgeRangeManager.iterateForRange tr id (some t) (some h) =
      EdgeRangeManager.iterate (tr.filter (fun p => decide (seekK3 id t h p.1)))
        (fun k => decide (k.1 = id ∧ k.2.1 = t)) := rfl
  rw [hstep]
  unfold EdgeRangeManager.iterate
  rw [takeWhile_eq_filter_of_ordered (fun p q : K4 × Unit => ltK4 p.1 q.1)]
  · rw [List.filter_filter, List.filter_map]
    apply congrArg (List.map _)
    apply List.filter_congr
    intro p _
    rcases p with ⟨⟨a, b, c, d⟩, u⟩
    show (decide (a = id ∧ b = t) && decide (seekK3 id t h (a, b, c, d))) =
      decide (a = id ∧ b = t ∧ h ≤ c)
    rw [← Bool.decide_and]
    apply decide_eq_decide.mpr
    constructor
    · intro hx
      have hx2 : (a = id ∧ b = t) ∧ seekK3 id t h (a, b, c, d) := hx
      refine ⟨hx2.1.1, hx2.1.2, ?_⟩
      rcases hx2.2 with hlt | heq
      · have hlt2 : id < a ∨ (id = a ∧ (t < b ∨ (t = b ∧ h < c))) := hlt
        omega
      · have heq2 : (id, t, h) = ((a, b, c) : Nat × Nat × Nat) := heq
        rw [Prod.mk.injEq, Prod.mk.injEq] at heq2
        omega
    · intro hx
      have hx2 : a = id ∧ b = t ∧ h ≤ c := hx
      refine ⟨⟨hx2.1, hx2.2.1⟩, ?_⟩
      unfold seekK3
      by_cases hc : h = c
      · refine Or.inr ?_
        show (id, t, h) = ((a, b, c) : Nat × Nat × Nat)
        rw [hx2.1, hx2.2.1, hc]
      · refine Or.inl ?_
        show id < a ∨ (id = a ∧ (t < b ∨ (t = b ∧ h < c)))
        have h1 := hx2.1
        have h2 := hx2.2.1
        have h3 := hx2.2.2
        omega
  · exact List.Pairwise.sublist (List.filter_sublist tr) hs
  · intro x hx y hy hr hy'
    rcases x with ⟨⟨a, b, c, d⟩, u⟩
    rcases y with ⟨⟨a', b', c', d'⟩, u'⟩
    have hxA : seekK3 id t h (a, b, c, d) :=
      of_decide_eq_true (List.mem_filter.mp hx).2
    have hy2 : a' = id ∧ b' = t := of_decide_eq_true hy'
    have hr2 : a < a' ∨ (a = a' ∧ (b < b' ∨ (b = b' ∧ (c < c' ∨ (c = c' ∧ d < d'))))) := hr
    show decide (a = id ∧ b = t) = true
    rw [decide_eq_true_eq]
    rcases hxA with hlt | heq
    · have hlt2 : id < a ∨ (id = a ∧ (t < b ∨ (t = b ∧ h < c))) := hlt
      omega
    · have heq2 : (id, t, h) = ((a, b, c) : Nat × Nat × Nat) := heq
      rw [Prod.mk.injEq, Prod.mk.injEq] at heq2
      omega

/-- Closed form of the untyped unbounded branch of `iterate_for_range` on
a sorted tree: it is the prefix scan on `id`. -/
theorem iterateForRange_none_eq (tr : List (K4 × Unit))
    (hs : TreeSorted ltK4 tr) (id : Nat) :
    EdgeRangeManager.iterateForRange tr id none none =
      (tr.map (·.1)).filter (fun k => decide (k.1 = id)) := by
  have hstep : EdgeRangeManager.iterateForRange tr id none none =
      EdgeRangeManager.iterate (tr.filter (fun p => decide (id ≤ p.1.1)))
        (fun k => decide (k.1 = id)) := rfl
  rw [hstep]
  unfold EdgeRangeManager.iterate
  rw [takeWhile_eq_filter_of_ordered (fun p q : K4 × Unit => ltK4 p.1 q.1)]
  · rw [List.filter_filter, List.filter_map]
    apply congrArg (List.map _)
    apply List.filter_congr
    intro p _
    rcases p with ⟨⟨a, b, c, d⟩, u⟩
    show (decide (a = id) && decide (id ≤ a)) = decide (a = id)
    by_cases ha : a = id
    · simp [ha]
    · simp [ha]
  · exact List.Pairwise.sublist (List.filter_sublist tr) hs
  · intro x hx y hy hr hy'
    rcases x with ⟨⟨a, b, c, d⟩, u⟩
    rcases y with ⟨⟨a', b', c', d'⟩, u'⟩
    have hxA : id ≤ a := of_decide_eq_true (List.mem_filter.mp hx).2
    have hy2 : a' = id := of_decide_eq_true hy'
    have hr2 : a < a' ∨ (a = a' ∧ (b < b' ∨ (b = b' ∧ (c < c' ∨ (c = c' ∧ d < d'))))) := hr
    show decide (a = id) = true
    rw [decide_eq_true_eq]
    omega

/-- Closed form of the untyped bounded branch: the prefix scan on `id`
post-filtered in memory to `update_datetime ≤ high`. -/
theorem iterateForRange_none_some_eq (tr : List (K4 × Unit))
    (hs : TreeSorted ltK4 tr) (id h : Nat) :
    EdgeRangeManager.iterateForRange tr id none (some h) =
      ((tr.map (·.1)).filter (fun k => decide (k.1 = id))).filter
        (fun k => decide (k.2.2.1 ≤ h)) := by
  have hstep : EdgeRangeManager.iterateForRange tr id none (some h) =
      (EdgeRangeManager.iterateForRange tr id none none).filter
        (fun k => decide (k.2.2.1 ≤ h)) := rfl
  rw [hstep, iterateForRange_none_eq tr hs id]

/-- With `high = MIN_DATETIME` the typed-bounded branch yields the whole
`(id, t)` block: every stored datetime is `≥ MIN_DATETIME`. -/
theorem iterateForRange_min_eq (tr : List (K4 × Unit))
    (hs : TreeSorted ltK4 tr) (id t : Nat) :
    EdgeRangeManager.iterateForRange tr id (some t) (some MIN_DATETIME) =
      (tr.map (·.1)).filter (fun k => decide (k.1 = id ∧ k.2.1 = t)) := by
  rw [iterateForRange_typed_eq tr hs id t MIN_DATETIME]
  apply List.filter_congr
  intro k _
  rcases k with ⟨a, b, c, d⟩
  show decide (a = id ∧ b = t ∧ MIN_DATETIME ≤ c) = decide (a = id ∧ b = t)
  apply decide_eq_decide.mpr
  exact ⟨fun hh => ⟨hh.1, hh.2.1⟩, fun hh => ⟨hh.1, hh.2, Nat.zero_le c⟩⟩

theorem foldl_kvRemove_proj {κ ν α : Type} [DecidableEq κ] (f : α → κ) (ks : List α) :
    ∀ l : List (κ × ν),
      ks.foldl (fun acc x => kvRemove (f x) acc) l =
        l.filter (fun p => decide (∀ x ∈ ks, p.1 ≠ f x)) := by
  induction ks with
  | nil =>
    intro l
    simp
  | cons k ks ih =>
    intro l
    rw [List.foldl_cons, ih (kvRemove (f k) l)]
    unfold kvRemove
    rw [List.filter_filter]
    apply List.filter_congr
    intro p _
    rw [← Bool.decide_and]
    apply decide_eq_decide.mpr
    constructor
    · rintro ⟨h1, h2⟩
      intro x hx
      rcases List.mem_cons.mp hx with h | h
      · rw [h]; exact h2
      · exact h1 x h
    · intro hh
      exact ⟨fun x hx => hh x (List.mem_cons_of_mem k hx),
        hh k (List.mem_cons_self k ks)⟩

theorem foldl_epDelete (ks : List K4) :
    ∀ s : SledHolder,
      ks.foldl
        (fun s' k =>
          { s' with
            edge_properties :=
              EdgePropertyManager.delete s'.edge_properties k.1 k.2.1 k.2.2.1 k.2.2.2 })
        s =
      { s with
        edge_properties :=
          ks.foldl (fun acc k => kvRemove k acc) s.edge_properties } := by
  induction ks with
  | nil => intro s; rfl
  | cons k ks ih =>
    intro s
    rw [List.foldl_cons, List.foldl_cons, ih]
    rfl

/-- Closed form of `EdgeManager::delete`: it removes the edge row, the
two index rows and all edge-property rows with prefix `(o, t, i)`, and
leaves everything else unchanged. -/
theorem edgeDelete_eq (s : SledHolder) (o t i d : Nat) :
    EdgeManager.delete s o t i d =
      { s with
        edges := kvRemove ((o, t, i) : K3) s.edges,
        edge_ranges := kvRemove ((o, t, d, i) : K4) s.edge_ranges,
        reversed_edge_ranges := kvRemove ((i, t, d, o) : K4) s.reversed_edge_ranges,
        edge_properties := s.edge_properties.filter
          (fun p => decide (¬ (p.1.1 = o ∧ p.1.2.1 = t ∧ p.1.2.2.1 = i))) } := by
  have h1 : EdgeManager.delete s o t i d =
      (EdgePropertyManager.iterateForOwner s.edge_properties o t i).foldl
        (fun s' k =>
          { s' with
            edge_properties :=
              EdgePropertyManager.delete s'.edge_properties k.1 k.2.1 k.2.2.1 k.2.2.2 })
        { s with
          edges := kvRemove ((o, t, i) : K3) s.edges,
          edge_ranges := kvRemove ((o, t, d, i) : K4) s.edge_ranges,
          reversed_edge_ranges := kvRemove ((i, t, d, o) : K4) s.reversed_edge_ranges } := rfl
  rw [h1, foldl_epDelete]
  unfold EdgePropertyManager.iterateForOwner
  rw [foldl_kvRemove_proj]
  refine congrArg (fun ep => { s with
    edges := kvRemove ((o, t, i) : K3) s.edges,
    edge_ranges := kvRemove ((o, t, d, i) : K4) s.edge_ranges,
    reversed_edge_ranges := kvRemove ((i, t, d, o) : K4) s.reversed_edge_ranges,
    edge_properties := ep }) ?_
  apply List.filter_congr
  intro p hp
  apply decide_eq_decide.mpr
  constructor
  · intro hall hpre
    have hmem : p.1 ∈ (s.edge_properties.filter (fun q =>
        decide (q.1.1 = o ∧ q.1.2.1 = t ∧ q.1.2.2.1 = i))).map (·.1) := by
      apply List.mem_map.mpr
      exact ⟨p, List.mem_filter.mpr ⟨hp, decide_eq_true hpre⟩, rfl⟩
    exact hall p.1 hmem rfl
  · intro hnp x hx he
    rcases List.mem_map.mp hx with ⟨q, hq, hqe⟩
    have hqp := of_decide_eq_true (List.mem_filter.mp hq).2
    apply hnp
    rw [he, ← hqe]
    exact hqp

theorem foldl_edgeDelete_eq (fo ft fi fd : K4 → Nat) (ks : List K4) :
    ∀ s : SledHolder,
      ks.foldl (fun s' k => EdgeManager.delete s' (fo k) (ft k) (fi k) (fd k)) s =
      { s with
        edges := s.edges.filter
          (fun p => decide (∀ k ∈ ks, p.1 ≠ ((fo k, ft k, fi k) : K3))),
        edge_ranges := s.edge_ranges.filter
          (fun p => decide (∀ k ∈ ks, p.1 ≠ ((fo k, ft k, fd k, fi k) : K4))),
        reversed_edge_ranges := s.reversed_edge_ranges.filter
          (fun p => decide (∀ k ∈ ks, p.1 ≠ ((fi k, ft k, fd k, fo k) : K4))),
        edge_properties := s.edge_properties.filter
          (fun p => decide (∀ k ∈ ks,
            ¬ (p.1.1 = fo k ∧ p.1.2.1 = ft k ∧ p.1.2.2.1 = fi k))) } := by
  induction ks with
  | nil =>
    intro s
    rcases s with ⟨db, edges, er, rer, vp, ep⟩
    simp
  | cons k ks ih =>
    intro s
    rw [List.foldl_cons, edgeDelete_eq, ih]
    rcases s with ⟨db, edges, er, rer, vp, ep⟩
    simp only [SledHolder.mk.injEq]
    refine ⟨trivial, ?_, ?_, ?_, trivial, ?_⟩
    all_goals
      try unfold kvRemove
      rw [List.filter_filter]
      apply List.filter_congr
      intro p _
      rw [← Bool.decide_and]
      apply decide_eq_decide.mpr
      rw [List.forall_mem_cons]
      exact ⟨fun hh => ⟨hh.2, hh.1⟩, fun hh => ⟨hh.2, hh.1⟩⟩

theorem foldl_vpDelete (ks : List (K2 × Json)) :
    ∀ s : SledHolder,
      ks.foldl
        (fun s' p =>
          { s' with
            vertex_properties :=
              VertexPropertyManager.delete s'.vertex_properties p.1.1 p.1.2 }) s =
      { s with
        vertex_properties :=
          ks.foldl (fun acc p => kvRemove p.1 acc) s.vertex_properties } := by
  induction ks with
  | nil => intro s; rfl
  | cons k ks ih =>
    intro s
    rw [List.foldl_cons, List.foldl_cons, ih]
    rfl

theorem vertexDelete_steps (s : SledHolder) (v : Nat) :
    VertexManager.delete s v = delStep4 (delStep3 (delStep2 (delStep1 s v) v) v) v := rfl

theorem delStep2_eq (s : SledHolder) (v : Nat) :
    delStep2 s v =
      { s with
        vertex_properties :=
          s.vertex_properties.filter (fun p => decide (p.1.1 ≠ v)) } := by
  unfold delStep2
  rw [foldl_vpDelete]
  refine congrArg (fun vp => { s with vertex_properties := vp }) ?_
  rw [foldl_kvRemove_proj]
  apply List.filter_congr
  intro p hp
  apply decide_eq_decide.mpr
  constructor
  · intro hall he
    exact hall p (List.mem_filter.mpr ⟨hp, decide_eq_true he⟩) rfl
  · intro hne x hx he
    have hx1 := of_decide_eq_true (List.mem_filter.mp hx).2
    rw [he] at hne
    exact hne hx1

theorem delStep3_eq (s : SledHolder) (v : Nat) :
    delStep3 s v =
      { s with
        edges := s.edges.filter
          (fun p => decide (∀ k ∈ EdgeRangeManager.iterateForOwner s.edge_ranges v,
            p.1 ≠ ((k.1, k.2.1, k.2.2.2) : K3))),
        edge_ranges := s.edge_ranges.filter
          (fun p => decide (∀ k ∈ EdgeRangeManager.iterateForOwner s.edge_ranges v,
            p.1 ≠ ((k.1, k.2.1, k.2.2.1, k.2.2.2) : K4))),
        reversed_edge_ranges := s.reversed_edge_ranges.filter
          (fun p => decide (∀ k ∈ EdgeRangeManager.iterateForOwner s.edge_ranges v,
            p.1 ≠ ((k.2.2.2, k.2.1, k.2.2.1, k.1) : K4))),
        edge_properties := s.edge_properties.filter
          (fun p => decide (∀ k ∈ EdgeRangeManager.iterateForOwner s.edge_ranges v,
            ¬ (p.1.1 = k.1 ∧ p.1.2.1 = k.2.1 ∧ p.1.2.2.1 = k.2.2.2))) } :=
  foldl_edgeDelete_eq (fun k => k.1) (fun k => k.2.1) (fun k => k.2.2.2)
    (fun k => k.2.2.1) (EdgeRangeManager.iterateForOwner s.edge_ranges v) s

theorem delStep4_eq (s : SledHolder) (v : Nat) :
    delStep4 s v =
      { s with
        edges := s.edges.filter
          (fun p => decide (∀ k ∈ EdgeRangeManager.iterateForOwner s.reversed_edge_ranges v,
            p.1 ≠ ((k.2.2.2, k.2.1, k.1) : K3))),
        edge_ranges := s.edge_ranges.filter
          (fun p => decide (∀ k ∈ EdgeRangeManager.iterateForOwner s.reversed_edge_ranges v,
            p.1 ≠ ((k.2.2.2, k.2.1, k.2.2.1, k.1) : K4))),
        reversed_edge_ranges := s.reversed_edge_ranges.filter
          (fun p => decide (∀ k ∈ EdgeRangeManager.iterateForOwner s.reversed_edge_ranges v,
            p.1 ≠ ((k.1, k.2.1, k.2.2.1, k.2.2.2) : K4))),
        edge_properties := s.edge_properties.filter
          (fun p => decide (∀ k ∈ EdgeRangeManager.iterateForOwner s.reversed_edge_ranges v,
            ¬ (p.1.1 = k.2.2.2 ∧ p.1.2.1 = k.2.1 ∧ p.1.2.2.1 = k.1))) } :=
  foldl_edgeDelete_eq (fun k => k.2.2.2) (fun k => k.2.1) (fun k => k.1)
    (fun k => k.2.2.1) (EdgeRangeManager.iterateForOwner s.reversed_edge_ranges v) s

theorem mem_iterateForOwner {tr : List (K4 × Unit)} {id : Nat} {k : K4} :
    k ∈ EdgeRangeManager.iterateForOwner tr id ↔ ((k, ()) ∈ tr ∧ k.1 = id) := by
  rw [iterateForOwner_eq]
  constructor
  · intro h
    rcases List.mem_map.mp h with ⟨q, hq, hqe⟩
    rcases List.mem_filter.mp hq with ⟨hq1, hq2⟩
    have hqk : q = (k, ()) := by
      rcases q with ⟨qk, qu⟩
      cases qu
      rw [show qk = k from hqe]
    rw [hqk] at hq1
    refine ⟨hq1, ?_⟩
    rw [← hqe]
    exact of_decide_eq_true hq2
  · rintro ⟨h1, h2⟩
    apply List.mem_map.mpr
    exact ⟨(k, ()), List.mem_filter.mpr ⟨h1, decide_eq_true h2⟩, rfl⟩

/-- The cascade of `VertexManager::delete` on a store satisfying the
cross-entity invariants removes exactly the rows mentioning `v`. -/
theorem vertexDelete_eq_prune (s : SledHolder) (v : Nat) (hinv : RangesInv s) :
    VertexManager.delete s v = pruneV s v := by
  obtain ⟨hfw0, hrv0, hpay0, hprop0⟩ := hinv
  rcases s with ⟨db, edges, er, rer, vp, ep⟩
  have hfw : ∀ p ∈ er,
      kvGet ((p.1.1, p.1.2.1, p.1.2.2.2) : K3) edges = some p.1.2.2.1 := hfw0
  have hrv : ∀ p ∈ rer,
      kvGet ((p.1.2.2.2, p.1.2.1, p.1.1) : K3) edges = some p.1.2.2.1 := hrv0
  have hpay : ∀ e ∈ edges,
      ((e.1.1, e.1.2.1, e.2, e.1.2.2), ()) ∈ er ∧
      ((e.1.2.2, e.1.2.1, e.2, e.1.1), ()) ∈ rer := hpay0
  have hprop : ∀ p ∈ ep,
      (kvGet ((p.1.1, p.1.2.1, p.1.2.2.1) : K3) edges).isSome = true := hprop0
  rw [vertexDelete_steps, delStep2_eq, delStep3_eq, delStep4_eq]
  unfold delStep1 pruneV
  simp only [SledHolder.mk.injEq]
  refine ⟨rfl, ?_, ?_, ?_, trivial, ?_⟩
  · -- edges tree
    rw [List.filter_filter]
    apply List.filter_congr
    intro p hp
    rcases p with ⟨⟨o, t, i⟩, d0⟩
    rw [← Bool.decide_and]
    apply decide_eq_decide.mpr
    constructor
    · rintro ⟨hPD, hPB⟩
      have hPB2 : ∀ k ∈ EdgeRangeManager.iterateForOwner er v,
          ((o, t, i) : K3) ≠ (k.1, k.2.1, k.2.2.2) := hPB
      have hPD2 : ∀ k ∈ EdgeRangeManager.iterateForOwner
          (rer.filter (fun p => decide
            (∀ k ∈ EdgeRangeManager.iterateForOwner er v,
              p.1 ≠ ((k.2.2.2, k.2.1, k.2.2.1, k.1) : K4)))) v,
          ((o, t, i) : K3) ≠ (k.2.2.2, k.2.1, k.1) := hPD
      have hov : o ≠ v := by
        intro ho
        have hm := (hpay ((o, t, i), d0) hp).1
        have hE : ((o, t, d0, i) : K4) ∈ EdgeRangeManager.iterateForOwner er v :=
          mem_iterateForOwner.mpr ⟨hm, ho⟩
        exact hPB2 _ hE rfl
      refine ⟨hov, ?_⟩
      intro hi
      have hm := (hpay ((o, t, i), d0) hp).2
      have hq : ∀ k ∈ EdgeRangeManager.iterateForOwner er v,
          ((i, t, d0, o) : K4) ≠ ((k.2.2.2, k.2.1, k.2.2.1, k.1) : K4) := by
        intro k hk he
        have hk1 : k.1 = v := (mem_iterateForOwner.mp hk).2
        rw [Prod.mk.injEq, Prod.mk.injEq, Prod.mk.injEq] at he
        exact hov (he.2.2.2.trans hk1)
      have hR : ((i, t, d0, o) : K4) ∈ EdgeRangeManager.iterateForOwner
          (rer.filter (fun p => decide
            (∀ k ∈ EdgeRangeManager.iterateForOwner er v,
              p.1 ≠ ((k.2.2.2, k.2.1, k.2.2.1, k.1) : K4)))) v :=
        mem_iterateForOwner.mpr ⟨List.mem_filter.mpr ⟨hm, decide_eq_true hq⟩, hi⟩
      exact hPD2 _ hR rfl
    · rintro ⟨ho, hi⟩
      constructor
      · intro k hk he
        have hk1 : k.1 = v := (mem_iterateForOwner.mp hk).2
        rw [Prod.mk.injEq, Prod.mk.injEq] at he
        exact hi (he.2.2.trans hk1)
      · intro k hk he
        have hk1 : k.1 = v := (mem_iterateForOwner.mp hk).2
        rw [Prod.mk.injEq, Prod.mk.injEq] at he
        exact ho (he.1.trans hk1)
  · -- forward edge-range tree
    rw [List.filter_filter]
    apply List.filter_congr
    intro p hp
    rcases p with ⟨⟨a, t, d, b⟩, u⟩
    cases u
    rw [← Bool.decide_and]
    apply decide_eq_decide.mpr
    constructor
    · rintro ⟨hPD, hPB⟩
      have hPB2 : ∀ k ∈ EdgeRangeManager.iterateForOwner er v,
          ((a, t, d, b) : K4) ≠ (k.1, k.2.1, k.2.2.1, k.2.2.2) := hPB
      have hPD2 : ∀ k ∈ EdgeRangeManager.iterateForOwner
          (rer.filter (fun p => decide
            (∀ k ∈ EdgeRangeManager.iterateForOwner er v,
              p.1 ≠ ((k.2.2.2, k.2.1, k.2.2.1, k.1) : K4)))) v,
          ((a, t, d, b) : K4) ≠ (k.2.2.2, k.2.1, k.2.2.1, k.1) := hPD
      have hav : a ≠ v := by
        intro ha
        have hE : ((a, t, d, b) : K4) ∈ EdgeRangeManager.iterateForOwner er v :=
          mem_iterateForOwner.mpr ⟨hp, ha⟩
        exact hPB2 _ hE rfl
      refine ⟨hav, ?_⟩
      intro hb
      have hget := hfw ((a, t, d, b), ()) hp
      have hmem := kvGet_mem hget
      have hm := (hpay ((a, t, b), d) hmem).2
      have hq : ∀ k ∈ EdgeRangeManager.iterateForOwner er v,
          ((b, t, d, a) : K4) ≠ ((k.2.2.2, k.2.1, k.2.2.1, k.1) : K4) := by
        intro k hk he
        have hk1 : k.1 = v := (mem_iterateForOwner.mp hk).2
        rw [Prod.mk.injEq, Prod.mk.injEq, Prod.mk.injEq] at he
        exact hav (he.2.2.2.trans hk1)
      have hR : ((b, t, d, a) : K4) ∈ EdgeRangeManager.iterateForOwner
          (rer.filter (fun p => decide
            (∀ k ∈ EdgeRangeManager.iterateForOwner er v,
              p.1 ≠ ((k.2.2.2, k.2.1, k.2.2.1, k.1) : K4)))) v :=
        mem_iterateForOwner.mpr ⟨List.mem_filter.mpr ⟨hm, decide_eq_true hq⟩, hb⟩
      exact hPD2 _ hR rfl
    · rintro ⟨ha, hb⟩
      constructor
      · intro k hk he
        have hk1 : k.1 = v := (mem_iterateForOwner.mp hk).2
        rw [Prod.mk.injEq, Prod.mk.injEq, Prod.mk.injEq] at he
        exact hb (he.2.2.2.trans hk1)
      · intro k hk he
        have hk1 : k.1 = v := (mem_iterateForOwner.mp hk).2
        rw [Prod.mk.injEq, Prod.mk.injEq, Prod.mk.injEq] at he
        exact ha (he.1.trans hk1)
  · -- reversed edge-range tree
    rw [List.filter_filter]
    apply List.filter_congr
    intro p hp
    rcases p with ⟨⟨a, t, d, b⟩, u⟩
    cases u
    rw [← Bool.decide_and]
    apply decide_eq_decide.mpr
    constructor
    · rintro ⟨hPD, hPB⟩
      have hPB2 : ∀ k ∈ EdgeRangeManager.iterateForOwner er v,
          ((a, t, d, b) : K4) ≠ (k.2.2.2, k.2.1, k.2.2.1, k.1) := hPB
      have hPD2 : ∀ k ∈ EdgeRangeManager.iterateForOwner
          (rer.filter (fun p => decide
            (∀ k ∈ EdgeRangeManager.iterateForOwner er v,
              p.1 ≠ ((k.2.2.2, k.2.1, k.2.2.1, k.1) : K4)))) v,
          ((a, t, d, b) : K4) ≠ (k.1, k.2.1, k.2.2.1, k.2.2.2) := hPD
      have hav : a ≠ v := by
        intro ha
        have hR : ((a, t, d, b) : K4) ∈ EdgeRangeManager.iterateForOwner
            (rer.filter (fun p => decide
              (∀ k ∈ EdgeRangeManager.iterateForOwner er v,
                p.1 ≠ ((k.2.2.2, k.2.1, k.2.2.1, k.1) : K4)))) v :=
          mem_iterateForOwner.mpr ⟨List.mem_filter.mpr ⟨hp, decide_eq_true hPB2⟩, ha⟩
        exact hPD2 _ hR rfl
      refine ⟨hav, ?_⟩
      intro hb
      have hget := hrv ((a, t, d, b), ()) hp
      have hmem := kvGet_mem hget
      have hm := (hpay ((b, t, a), d) hmem).1
      have hE : ((b, t, d, a) : K4) ∈ EdgeRangeManager.iterateForOwner er v :=
        mem_iterateForOwner.mpr ⟨hm, hb⟩
      exact hPB2 _ hE rfl
    · rintro ⟨ha, hb⟩
      constructor
      · intro k hk he
        have hk1 : k.1 = v := (mem_iterateForOwner.mp hk).2
        rw [Prod.mk.injEq, Prod.mk.injEq, Prod.mk.injEq] at he
        exact ha (he.1.trans hk1)
      · intro k hk he
        have hk1 : k.1 = v := (mem_iterateForOwner.mp hk).2
        rw [Prod.mk.injEq, Prod.mk.injEq, Prod.mk.injEq] at he
        exact hb (he.2.2.2.trans hk1)
  · -- edge-properties tree
    rw [List.filter_filter]
    apply List.filter_congr
    intro p hp
    rcases p with ⟨⟨o, t, i, n⟩, jval⟩
    rw [← Bool.decide_and]
    apply decide_eq_decide.mpr
    constructor
    · rintro ⟨hPD, hPB⟩
      have hPB2 : ∀ k ∈ EdgeRangeManager.iterateForOwner er v,
          ¬ (o = k.1 ∧ t = k.2.1 ∧ i = k.2.2.2) := hPB
      have hPD2 : ∀ k ∈ EdgeRangeManager.iterateForOwner
          (rer.filter (fun p => decide
            (∀ k ∈ EdgeRangeManager.iterateForOwner er v,
              p.1 ≠ ((k.2.2.2, k.2.1, k.2.2.1, k.1) : K4)))) v,
          ¬ (o = k.2.2.2 ∧ t = k.2.1 ∧ i = k.1) := hPD
      have hsome : (kvGet ((o, t, i) : K3) edges).isSome = true :=
        hprop ((o, t, i, n), jval) hp
      rcases Option.isSome_iff_exists.mp hsome with ⟨d, hd⟩
      have hmem := kvGet_mem hd
      have hov : o ≠ v := by
        intro ho
        have hm := (hpay ((o, t, i), d) hmem).1
        have hE : ((o, t, d, i) : K4) ∈ EdgeRangeManager.iterateForOwner er v :=
          mem_iterateForOwner.mpr ⟨hm, ho⟩
        exact hPB2 _ hE ⟨rfl, rfl, rfl⟩
      refine ⟨hov, ?_⟩
      intro hi
      have hm := (hpay ((o, t, i), d) hmem).2
      have hq : ∀ k ∈ EdgeRangeManager.iterateForOwner er v,
          ((i, t, d, o) : K4) ≠ ((k.2.2.2, k.2.1, k.2.2.1, k.1) : K4) := by
        intro k hk he
        have hk1 : k.1 = v := (mem_iterateForOwner.mp hk).2
        rw [Prod.mk.injEq, Prod.mk.injEq, Prod.mk.injEq] at he
        exact hov (he.2.2.2.trans hk1)
      have hR : ((i, t, d, o) : K4) ∈ EdgeRangeManager.iterateForOwner
          (rer.filter (fun p => decide
            (∀ k ∈ EdgeRangeManager.iterateForOwner er v,
              p.1 ≠ ((k.2.2.2, k.2.1, k.2.2.1, k.1) : K4)))) v :=
        mem_iterateForOwner.mpr ⟨List.mem_filter.mpr ⟨hm, decide_eq_true hq⟩, hi⟩
      exact hPD2 _ hR ⟨rfl, rfl, rfl⟩
    · rintro ⟨ho, hi⟩
      constructor
      · intro k hk he
        have hk1 : k.1 = v := (mem_iterateForOwner.mp hk).2
        exact hi (he.2.2.trans hk1)
      · intro k hk he
        have hk1 : k.1 = v := (mem_iterateForOwner.mp hk).2
        exact ho (he.1.trans hk1)

theorem kvOp_errSpec (sch : Sched) (f : SledHolder → SledHolder) :
    ErrSpec sch (kvOp sch f) := by
  intro st e st' h
  unfold kvOp at h
  cases h0 : sch st.ctr with
  | none =>
    rw [h0] at h
    dsimp only at h
    rw [Prod.mk.injEq] at h
    cases h.1
  | some e1 =>
    rw [h0] at h
    dsimp only at h
    rw [Prod.mk.injEq] at h
    obtain ⟨h1, h2⟩ := h
    injection h1 with h1
    subst h1
    rw [← h2]
    exact ⟨Nat.lt_succ_self _, by rw [Nat.add_sub_cancel]; exact h0⟩

theorem kvOp_mono (sch : Sched) (f : SledHolder → SledHolder) :
    CtrMono (kvOp sch f) := by
  intro st r st' h
  unfold kvOp at h
  cases h0 : sch st.ctr with
  | none =>
    rw [h0] at h
    dsimp only at h
    rw [Prod.mk.injEq] at h
    rw [← h.2]
    exact Nat.le_succ _
  | some e1 =>
    rw [h0] at h
    dsimp only at h
    rw [Prod.mk.injEq] at h
    rw [← h.2]
    exact Nat.le_succ _

theorem kvOp_pres {α : Type} (π : SledHolder → α) (sch : Sched)
    (f : SledHolder → SledHolder) (hf : ∀ h, π (f h) = π h) :
    Pres π (kvOp sch f) := by
  intro st r st' h
  unfold kvOp at h
  cases h0 : sch st.ctr with
  | none =>
    rw [h0] at h
    dsimp only at h
    rw [Prod.mk.injEq] at h
    rw [← h.2]
    exact hf st.hold
  | some e1 =>
    rw [h0] at h
    dsimp only at h
    rw [Prod.mk.injEq] at h
    rw [← h.2]

theorem andThen_errSpec {sch : Sched} {F G : MState → Except Nat Unit × MState}
    (hF : ErrSpec sch F) (hFm : CtrMono F) (hG : ErrSpec sch G) :
    ErrSpec sch (fun st => andThen (F st) G) := by
  intro st e st' h
  dsimp only at h
  rcases hFs : F st with ⟨r, st1⟩
  rw [hFs] at h
  cases r with
  | error e1 =>
    unfold andThen at h
    rw [Prod.mk.injEq] at h
    obtain ⟨h1, h2⟩ := h
    rw [h1] at hFs
    rw [h2] at hFs
    exact hF st e st' hFs
  | ok u =>
    unfold andThen at h
    have ⟨ha, hb⟩ := hG st1 e st' h
    have hm := hFm st _ st1 hFs
    exact ⟨Nat.lt_of_le_of_lt hm ha, hb⟩

theorem andThen_mono {F G : MState → Except Nat Unit × MState}
    (hF : CtrMono F) (hG : CtrMono G) :
    CtrMono (fun st => andThen (F st) G) := by
  intro st r st' h
  dsimp only at h
  rcases hFs : F st with ⟨r1, st1⟩
  rw [hFs] at h
  cases r1 with
  | error e1 =>
    unfold andThen at h
    rw [Prod.mk.injEq] at h
    rw [← h.2]
    exact hF st _ st1 hFs
  | ok u =>
    unfold andThen at h
    exact Nat.le_trans (hF st _ st1 hFs) (hG st1 r st' h)

theorem andThen_pres {α : Type} {π : SledHolder → α}
    {F G : MState → Except Nat Unit × MState}
    (hF : Pres π F) (hG : Pres π G) :
    Pres π (fun st => andThen (F st) G) := by
  intro st r st' h
  dsimp only at h
  rcases hFs : F st with ⟨r1, st1⟩
  rw [hFs] at h
  cases r1 with
  | error e1 =>
    unfold andThen at h
    rw [Prod.mk.injEq] at h
    rw [← h.2]
    exact hF st _ st1 hFs
  | ok u =>
    unfold andThen at h
    exact (hG st1 r st' h).trans (hF st _ st1 hFs)

theorem fetchProp_errSpec {sch : Sched} {G : MState → Except Nat Unit × MState}
    (hG : ErrSpec sch G) : ErrSpec sch (fetchProp sch G) := by
  intro st e st' h
  unfold fetchProp at h
  cases h0 : sch st.ctr with
  | some e1 =>
    rw [h0] at h
    dsimp only at h
    rw [Prod.mk.injEq] at h
    obtain ⟨h1, h2⟩ := h
    injection h1 with h1
    subst h1
    rw [← h2]
    exact ⟨Nat.lt_succ_self _, by rw [Nat.add_sub_cancel]; exact h0⟩
  | none =>
    rw [h0] at h
    dsimp only at h
    have ⟨ha, hb⟩ := hG (⟨st.hold, st.ctr + 1⟩ : MState) e st' h
    exact ⟨Nat.lt_of_le_of_lt (Nat.le_succ _) ha, hb⟩

theorem fetchProp_mono {sch : Sched} {G : MState → Except Nat Unit × MState}
    (hG : CtrMono G) : CtrMono (fetchProp sch G) := by
  intro st r st' h
  unfold fetchProp at h
  cases h0 : sch st.ctr with
  | some e1 =>
    rw [h0] at h
    dsimp only at h
    rw [Prod.mk.injEq] at h
    rw [← h.2]
    exact Nat.le_succ _
  | none =>
    rw [h0] at h
    dsimp only at h
    exact Nat.le_trans (Nat.le_succ _) (hG (⟨st.hold, st.ctr + 1⟩ : MState) r st' h)

theorem fetchProp_pres {α : Type} {π : SledHolder → α} {sch : Sched}
    {G : MState → Except Nat Unit × MState}
    (hG : Pres π G) : Pres π (fetchProp sch G) := by
  intro st r st' h
  unfold fetchProp at h
  cases h0 : sch st.ctr with
  | some e1 =>
    rw [h0] at h
    dsimp only at h
    rw [Prod.mk.injEq] at h
    rw [← h.2]
  | none =>
    rw [h0] at h
    dsimp only at h
    exact hG (⟨st.hold, st.ctr + 1⟩ : MState) r st' h

theorem fetchSwallow_errSpec {sch : Sched} {G : MState → Except Nat Unit × MState}
    (hG : ErrSpec sch G) : ErrSpec sch (fetchSwallow sch G) := by
  intro st e st' h
  unfold fetchSwallow at h
  cases h0 : sch st.ctr with
  | some e1 =>
    rw [h0] at h
    dsimp only at h
    rw [Prod.mk.injEq] at h
    cases h.1
  | none =>
    rw [h0] at h
    dsimp only at h
    have ⟨ha, hb⟩ := hG (⟨st.hold, st.ctr + 1⟩ : MState) e st' h
    exact ⟨Nat.lt_of_le_of_lt (Nat.le_succ _) ha, hb⟩

theorem fetchSwallow_mono {sch : Sched} {G : MState → Except Nat Unit × MState}
    (hG : CtrMono G) : CtrMono (fetchSwallow sch G) := by
  intro st r st' h
  unfold fetchSwallow at h
  cases h0 : sch st.ctr with
  | some e1 =>
    rw [h0] at h
    dsimp only at h
    rw [Prod.mk.injEq] at h
    rw [← h.2]
    exact Nat.le_succ _
  | none =>
    rw [h0] at h
    dsimp only at h
    exact Nat.le_trans (Nat.le_succ _) (hG (⟨st.hold, st.ctr + 1⟩ : MState) r st' h)

theorem fetchSwallow_pres {α : Type} {π : SledHolder → α} {sch : Sched}
    {G : MState → Except Nat Unit × MState}
    (hG : Pres π G) : Pres π (fetchSwallow sch G) := by
  intro st r st' h
  unfold fetchSwallow at h
  cases h0 : sch st.ctr with
  | some e1 =>
    rw [h0] at h
    dsimp only at h
    rw [Prod.mk.injEq] at h
    rw [← h.2]
  | none =>
    rw [h0] at h
    dsimp only at h
    exact hG (⟨st.hold, st.ctr + 1⟩ : MState) r st' h

theorem epLoopM_errSpec (sch : Sched) : ∀ ks, ErrSpec sch (epLoopM sch ks) := by
  intro ks
  induction ks with
  | nil =>
    intro st e st' h
    rw [show epLoopM sch [] st = (Except.ok (), st) from rfl, Prod.mk.injEq] at h
    cases h.1
  | cons k rest ih =>
    exact fetchProp_errSpec (andThen_errSpec (kvOp_errSpec sch _) (kvOp_mono sch _) ih)

theorem epLoopM_mono (sch : Sched) : ∀ ks, CtrMono (epLoopM sch ks) := by
  intro ks
  induction ks with
  | nil =>
    intro st r st' h
    rw [show epLoopM sch [] st = (Except.ok (), st) from rfl, Prod.mk.injEq] at h
    rw [← h.2]
  | cons k rest ih =>
    exact fetchProp_mono (andThen_mono (kvOp_mono sch _) ih)

theorem epLoopM_pres {α : Type} (π : SledHolder → α) (sch : Sched)
    (hπ : ∀ (h : SledHolder) (ep : List (K4 × Json)),
      π { h with edge_properties := ep } = π h) :
    ∀ ks, Pres π (epLoopM sch ks) := by
  intro ks
  induction ks with
  | nil =>
    intro st r st' h
    rw [show epLoopM sch [] st = (Except.ok (), st) from rfl, Prod.mk.injEq] at h
    rw [← h.2]
  | cons k rest ih =>
    exact fetchProp_pres (andThen_pres (kvOp_pres π sch _ (fun h => hπ h _)) ih)

theorem edgeDeleteM_errSpec (sch : Sched) (o t i d : Nat) :
    ErrSpec sch (EdgeManager.deleteM sch o t i d) :=
  andThen_errSpec (kvOp_errSpec sch _) (kvOp_mono sch _)
    (andThen_errSpec (kvOp_errSpec sch _) (kvOp_mono sch _)
      (andThen_errSpec (kvOp_errSpec sch _) (kvOp_mono sch _)
        (fun st e st' h => epLoopM_errSpec sch _ st e st' h)))

theorem edgeDeleteM_mono (sch : Sched) (o t i d : Nat) :
    CtrMono (EdgeManager.deleteM sch o t i d) :=
  andThen_mono (kvOp_mono sch _)
    (andThen_mono (kvOp_mono sch _)
      (andThen_mono (kvOp_mono sch _)
        (fun st r st' h => epLoopM_mono sch _ st r st' h)))

theorem edgeDeleteM_pres_db (sch : Sched) (o t i d : Nat) :
    Pres (fun h => h.db) (EdgeManager.deleteM sch o t i d) :=
  andThen_pres (kvOp_pres _ sch _ (fun _ => rfl))
    (andThen_pres (kvOp_pres _ sch _ (fun _ => rfl))
      (andThen_pres (kvOp_pres _ sch _ (fun _ => rfl))
        (fun st r st' h =>
          epLoopM_pres (fun h => h.db) sch (fun _ _ => rfl) _ st r st' h)))

theorem edgeDeleteM_edges (sch : Sched) (o t i d : Nat) (st : MState)
    (r : Except Nat Unit) (st' : MState)
    (h : EdgeManager.deleteM sch o t i d st = (r, st')) :
    st'.hold.edges = if sch st.ctr = none
      then kvRemove (EdgeManager.key o t i) st.hold.edges
      else st.hold.edges := by
  unfold EdgeManager.deleteM at h
  unfold kvOp at h
  cases h0 : sch st.ctr with
  | some e =>
    rw [h0] at h
    dsimp only at h
    unfold andThen at h
    rw [Prod.mk.injEq] at h
    rw [← h.2, if_neg (by simp [h0])]
  | none =>
    rw [h0] at h
    dsimp only at h
    unfold andThen at h
    rw [if_pos rfl]
    have hpres : Pres (fun hh => hh.edges)
        (fun st2 => andThen
          (kvOp sch
            (fun hh =>
              { hh with edge_ranges := EdgeRangeManager.delete hh.edge_ranges o t d i })
            st2)
          (fun st3 =>
            andThen
              (kvOp sch
                (fun hh =>
                  { hh with
                    reversed_edge_ranges :=
                      EdgeRangeManager.delete hh.reversed_edge_ranges i t d o })
                st3)
              (fun st4 =>
                epLoopM sch
                  (EdgePropertyManager.iterateForOwner st4.hold.edge_properties o t i)
                  st4))) :=
      andThen_pres (kvOp_pres _ sch _ (fun _ => rfl))
        (andThen_pres (kvOp_pres _ sch _ (fun _ => rfl))
          (fun st4 r4 st4' h4 =>
            epLoopM_pres (fun hh => hh.edges) sch (fun _ _ => rfl) _ st4 r4 st4' h4))
    exact hpres _ r st' h

theorem vpLoopM_errSpec (sch : Sched) : ∀ ks, ErrSpec sch (vpLoopM sch ks) := by
  intro ks
  induction ks with
  | nil =>
    intro st e st' h
    rw [show vpLoopM sch [] st = (Except.ok (), st) from rfl, Prod.mk.injEq] at h
    cases h.1
  | cons k rest ih =>
    exact fetchProp_errSpec (andThen_errSpec (kvOp_errSpec sch _) (kvOp_mono sch _) ih)

theorem vpLoopM_mono (sch : Sched) : ∀ ks, CtrMono (vpLoopM sch ks) := by
  intro ks
  induction ks with
  | nil =>
    intro st r st' h
    rw [show vpLoopM sch [] st = (Except.ok (), st) from rfl, Prod.mk.injEq] at h
    rw [← h.2]
  | cons k rest ih =>
    exact fetchProp_mono (andThen_mono (kvOp_mono sch _) ih)

theorem vpLoopM_pres_db (sch : Sched) : ∀ ks, Pres (fun h => h.db) (vpLoopM sch ks) := by
  intro ks
  induction ks with
  | nil =>
    intro st r st' h
    rw [show vpLoopM sch [] st = (Except.ok (), st) from rfl, Prod.mk.injEq] at h
    rw [← h.2]
  | cons k rest ih =>
    exact fetchProp_pres (andThen_pres (kvOp_pres _ sch _ (fun _ => rfl)) ih)

theorem erLoopM_errSpec (sch : Sched) (call : K4 → Nat × Nat × Nat × Nat) :
    ∀ ks, ErrSpec sch (erLoopM sch call ks) := by
  intro ks
  induction ks with
  | nil =>
    intro st e st' h
    rw [show erLoopM sch call [] st = (Except.ok (), st) from rfl, Prod.mk.injEq] at h
    cases h.1
  | cons k rest ih =>
    exact fetchSwallow_errSpec
      (andThen_errSpec (edgeDeleteM_errSpec sch _ _ _ _) (edgeDeleteM_mono sch _ _ _ _) ih)

theorem erLoopM_mono (sch : Sched) (call : K4 → Nat × Nat × Nat × Nat) :
    ∀ ks, CtrMono (erLoopM sch call ks) := by
  intro ks
  induction ks with
  | nil =>
    intro st r st' h
    rw [show erLoopM sch call [] st = (Except.ok (), st) from rfl, Prod.mk.injEq] at h
    rw [← h.2]
  | cons k rest ih =>
    exact fetchSwallow_mono (andThen_mono (edgeDeleteM_mono sch _ _ _ _) ih)

theorem erLoopM_pres_db (sch : Sched) (call : K4 → Nat × Nat × Nat × Nat) :
    ∀ ks, Pres (fun h => h.db) (erLoopM sch call ks) := by
  intro ks
  induction ks with
  | nil =>
    intro st r st' h
    rw [show erLoopM sch call [] st = (Except.ok (), st) from rfl, Prod.mk.injEq] at h
    rw [← h.2]
  | cons k rest ih =>
    exact fetchSwallow_pres (andThen_pres (edgeDeleteM_pres_db sch _ _ _ _) ih)

theorem vertexDeleteM_errSpec (sch : Sched) (id : Nat) :
    ErrSpec sch (VertexManager.deleteM sch id) :=
  andThen_errSpec (kvOp_errSpec sch _) (kvOp_mono sch _)
    (andThen_errSpec
      (fun st e st' h => vpLoopM_errSpec sch _ st e st' h)
      (fun st r st' h => vpLoopM_mono sch _ st r st' h)
      (andThen_errSpec
        (fun st e st' h => erLoopM_errSpec sch _ _ st e st' h)
        (fun st r st' h => erLoopM_mono sch _ _ st r st' h)
        (fun st e st' h => erLoopM_errSpec sch _ _ st e st' h)))

theorem vertexDeleteM_db (sch : Sched) (id : Nat) (st : MState)
    (r : Except Nat Unit) (st' : MState)
    (h : VertexManager.deleteM sch id st = (r, st')) :
    st'.hold.db = if sch st.ctr = none
      then kvRemove (VertexManager.key id) st.hold.db
      else st.hold.db := by
  unfold VertexManager.deleteM at h
  unfold kvOp at h
  cases h0 : sch st.ctr with
  | some e =>
    rw [h0] at h
    dsimp only at h
    unfold andThen at h
    rw [Prod.mk.injEq] at h
    rw [← h.2, if_neg (by simp [h0])]
  | none =>
    rw [h0] at h
    dsimp only at h
    unfold andThen at h
    rw [if_pos rfl]
    have hpres : Pres (fun hh => hh.db)
        (fun st1 => andThen
          (vpLoopM sch
            (VertexPropertyManager.iterateForOwner st1.hold.vertex_properties id) st1)
          (fun st2 =>
            andThen
              (erLoopM sch (fun k => (k.1, k.2.1, k.2.2.2, k.2.2.1))
                (EdgeRangeManager.iterateForOwner st2.hold.edge_ranges id) st2)
              (fun st3 =>
                erLoopM sch (fun k => (k.2.2.2, k.2.1, k.1, k.2.2.1))
                  (EdgeRangeManager.iterateForOwner st3.hold.reversed_edge_ranges id)
                  st3))) :=
      andThen_pres
        (fun st1 r1 st1' h1 => vpLoopM_pres_db sch _ st1 r1 st1' h1)
        (andThen_pres
          (fun st2 r2 st2' h2 => erLoopM_pres_db sch _ _ st2 r2 st2' h2)
          (fun st3 r3 st3' h3 => erLoopM_pres_db sch _ _ st3 r3 st3' h3))
    exact hpres _ r st' h

theorem edgeSet_set_eq_set (s : SledHolder) (o t i d : Nat)
    (hE : TreeSorted ltK3 s.edges) (hF : TreeSorted ltK4 s.edge_ranges)
    (hR : TreeSorted ltK4 s.reversed_edge_ranges) :
    EdgeManager.set (EdgeManager.set s o t i d) o t i d =
      EdgeManager.set s o t i d := by
  rcases s with ⟨db, edges, er, rer, vp, ep⟩
  have hE' : TreeSorted ltK3 edges := hE
  have hF' : TreeSorted ltK4 er := hF
  have hR' : TreeSorted ltK4 rer := hR
  cases hget : EdgeManager.get ⟨db, edges, er, rer, vp, ep⟩ o t i with
  | none =>
    have hS : EdgeManager.set ⟨db, edges, er, rer, vp, ep⟩ o t i d =
        ⟨db, kvInsert ltK3 (EdgeManager.key o t i) d edges,
          kvInsert ltK4 (EdgeRangeManager.key o t d i) () er,
          kvInsert ltK4 (EdgeRangeManager.key i t d o) () rer, vp, ep⟩ := by
      unfold EdgeManager.set
      rw [hget]
      rfl
    rw [hS]
    have hget2 : EdgeManager.get
        (⟨db, kvInsert ltK3 (EdgeManager.key o t i) d edges,
          kvInsert ltK4 (EdgeRangeManager.key o t d i) () er,
          kvInsert ltK4 (EdgeRangeManager.key i t d o) () rer, vp, ep⟩ : SledHolder)
        o t i = some d :=
      kvGet_kvInsert_self ltK3 _ d edges
    unfold EdgeManager.set
    rw [hget2]
    dsimp only
    simp only [SledHolder.mk.injEq]
    refine ⟨trivial, ?_, ?_, ?_, trivial, trivial⟩
    · exact kvInsert_idem ltK3 ltK3_irrefl _ d edges
    · show kvInsert ltK4 (EdgeRangeManager.key o t d i) ()
        (kvRemove (EdgeRangeManager.key o t d i)
          (kvInsert ltK4 (EdgeRangeManager.key o t d i) () er)) =
        kvInsert ltK4 (EdgeRangeManager.key o t d i) () er
      rw [kvRemove_kvInsert]
      exact kvInsert_kvRemove_self ltK4 ltK4_irrefl (fun a b => ltK4_trans a b) _ () er hF'
    · show kvInsert ltK4 (EdgeRangeManager.key i t d o) ()
        (kvRemove (EdgeRangeManager.key i t d o)
          (kvInsert ltK4 (EdgeRangeManager.key i t d o) () rer)) =
        kvInsert ltK4 (EdgeRangeManager.key i t d o) () rer
      rw [kvRemove_kvInsert]
      exact kvInsert_kvRemove_self ltK4 ltK4_irrefl (fun a b => ltK4_trans a b) _ () rer hR'
  | some d0 =>
    have hS : EdgeManager.set ⟨db, edges, er, rer, vp, ep⟩ o t i d =
        ⟨db, kvInsert ltK3 (EdgeManager.key o t i) d edges,
          kvInsert ltK4 (EdgeRangeManager.key o t d i) ()
            (kvRemove (EdgeRangeManager.key o t d0 i) er),
          kvInsert ltK4 (EdgeRangeManager.key i t d o) ()
            (kvRemove (EdgeRangeManager.key i t d0 o) rer), vp, ep⟩ := by
      unfold EdgeManager.set
      rw [hget]
      rfl
    rw [hS]
    have hget2 : EdgeManager.get
        (⟨db, kvInsert ltK3 (EdgeManager.key o t i) d edges,
          kvInsert ltK4 (EdgeRangeManager.key o t d i) ()
            (kvRemove (EdgeRangeManager.key o t d0 i) er),
          kvInsert ltK4 (EdgeRangeManager.key i t d o) ()
            (kvRemove (EdgeRangeManager.key i t d0 o) rer), vp, ep⟩ : SledHolder)
        o t i = some d :=
      kvGet_kvInsert_self ltK3 _ d edges
    unfold EdgeManager.set
    rw [hget2]
    dsimp only
    simp only [SledHolder.mk.injEq]
    refine ⟨trivial, ?_, ?_, ?_, trivial, trivial⟩
    · exact kvInsert_idem ltK3 ltK3_irrefl _ d edges
    · show kvInsert ltK4 (EdgeRangeManager.key o t d i) ()
        (kvRemove (EdgeRangeManager.key o t d i)
          (kvInsert ltK4 (EdgeRangeManager.key o t d i) ()
            (kvRemove (EdgeRangeManager.key o t d0 i) er))) =
        kvInsert ltK4 (EdgeRangeManager.key o t d i) ()
          (kvRemove (EdgeRangeManager.key o t d0 i) er)
      rw [kvRemove_kvInsert]
      exact kvInsert_kvRemove_self ltK4 ltK4_irrefl (fun a b => ltK4_trans a b) _ ()
        _ (kvRemove_sorted ltK4 _ er hF')
    · show kvInsert ltK4 (EdgeRangeManager.key i t d o) ()
        (kvRemove (EdgeRangeManager.key i t d o)
          (kvInsert ltK4 (EdgeRangeManager.key i t d o) ()
            (kvRemove (EdgeRangeManager.key i t d0 o) rer))) =
        kvInsert ltK4 (EdgeRangeManager.key i t d o) ()
          (kvRemove (EdgeRangeManager.key i t d0 o) rer)
      rw [kvRemove_kvInsert]
      exact kvInsert_kvRemove_self ltK4 ltK4_irrefl (fun a b => ltK4_trans a b) _ ()
        _ (kvRemove_sorted ltK4 _ rer hR')

theorem edgeSet_index (s : SledHolder) (o t i d : Nat)
    (hf : ∀ p ∈ s.edge_ranges, p.1.1 = o → p.1.2.1 = t → p.1.2.2.2 = i →
      EdgeManager.get s o t i = some p.1.2.2.1)
    (hr : ∀ p ∈ s.reversed_edge_ranges, p.1.1 = i → p.1.2.1 = t → p.1.2.2.2 = o →
      EdgeManager.get s o t i = some p.1.2.2.1) :
    EdgeManager.get (EdgeManager.set s o t i d) o t i = some d ∧
    (((o, t, d, i) : K4), ()) ∈ (EdgeManager.set s o t i d).edge_ranges ∧
    (((i, t, d, o) : K4), ()) ∈ (EdgeManager.set s o t i d).reversed_edge_ranges ∧
    ∀ d', d' ≠ d →
      (((o, t, d', i) : K4), ()) ∉ (EdgeManager.set s o t i d).edge_ranges ∧
      (((i, t, d', o) : K4), ()) ∉ (EdgeManager.set s o t i d).reversed_edge_ranges := by
  rcases s with ⟨db, edges, er, rer, vp, ep⟩
  have hf' : ∀ p ∈ er, p.1.1 = o → p.1.2.1 = t → p.1.2.2.2 = i →
      EdgeManager.get ⟨db, edges, er, rer, vp, ep⟩ o t i = some p.1.2.2.1 := hf
  have hr' : ∀ p ∈ rer, p.1.1 = i → p.1.2.1 = t → p.1.2.2.2 = o →
      EdgeManager.get ⟨db, edges, er, rer, vp, ep⟩ o t i = some p.1.2.2.1 := hr
  cases hget : EdgeManager.get ⟨db, edges, er, rer, vp, ep⟩ o t i with
  | none =>
    have hS : EdgeManager.set ⟨db, edges, er, rer, vp, ep⟩ o t i d =
        ⟨db, kvInsert ltK3 (EdgeManager.key o t i) d edges,
          kvInsert ltK4 (EdgeRangeManager.key o t d i) () er,
          kvInsert ltK4 (EdgeRangeManager.key i t d o) () rer, vp, ep⟩ := by
      unfold EdgeManager.set
      rw [hget]
      rfl
    rw [hS]
    refine ⟨kvGet_kvInsert_self ltK3 _ d edges,
      mem_kvInsert_self ltK4 _ _ er, mem_kvInsert_self ltK4 _ _ rer, ?_⟩
    intro d' hd'
    constructor
    · intro hmem
      rcases of_mem_kvInsert ltK4 hmem with he | hmem2
      · exact hd' (congrArg (fun q : K4 × Unit => q.1.2.2.1) he)
      · have hg := hf' _ hmem2 rfl rfl rfl
        rw [hget] at hg
        cases hg
    · intro hmem
      rcases of_mem_kvInsert ltK4 hmem with he | hmem2
      · exact hd' (congrArg (fun q : K4 × Unit => q.1.2.2.1) he)
      · have hg := hr' _ hmem2 rfl rfl rfl
        rw [hget] at hg
        cases hg
  | some d0 =>
    have hS : EdgeManager.set ⟨db, edges, er, rer, vp, ep⟩ o t i d =
        ⟨db, kvInsert ltK3 (EdgeManager.key o t i) d edges,
          kvInsert ltK4 (EdgeRangeManager.key o t d i) ()
            (kvRemove (EdgeRangeManager.key o t d0 i) er),
          kvInsert ltK4 (EdgeRangeManager.key i t d o) ()
            (kvRemove (EdgeRangeManager.key i t d0 o) rer), vp, ep⟩ := by
      unfold EdgeManager.set
      rw [hget]
      rfl
    rw [hS]
    refine ⟨kvGet_kvInsert_self ltK3 _ d edges,
      mem_kvInsert_self ltK4 _ _ _, mem_kvInsert_self ltK4 _ _ _, ?_⟩
    intro d' hd'
    constructor
    · intro hmem
      rcases of_mem_kvInsert ltK4 hmem with he | hmem2
      · exact hd' (congrArg (fun q : K4 × Unit => q.1.2.2.1) he)
      · rcases mem_kvRemove.mp hmem2 with ⟨hmem3, hne⟩
        have hg := hf' _ hmem3 rfl rfl rfl
        rw [hget] at hg
        injection hg with hg
        apply hne
        show ((o, t, d', i) : K4) = ((o, t, d0, i) : K4)
        rw [hg]
    · intro hmem
      rcases of_mem_kvInsert ltK4 hmem with he | hmem2
      · exact hd' (congrArg (fun q : K4 × Unit => q.1.2.2.1) he)
      · rcases mem_kvRemove.mp hmem2 with ⟨hmem3, hne⟩
        have hg := hr' _ hmem3 rfl rfl rfl
        rw [hget] at hg
        injection hg with hg
        apply hne
        show ((i, t, d', o) : K4) = ((i, t, d0, o) : K4)
        rw [hg]

/-- Claim C1 (amended): for every store in which the forward and reversed
index rows for the edge `(o,t,i)` all match the stored payload
`edges[(o,t,i)]`, after `EdgeManager.set(o,t,i,d)` the edges tree maps
`(o,t,i)` to `d`, the forward tree holds `(o,t,d,i)`, the reversed tree
holds `(i,t,d,o)`, and no other forward or reversed index row for the
edge `(o,t,i)` exists. -/
theorem claim_C1 (s : SledHolder) (o t i d : Nat)
    (hf : ∀ p ∈ s.edge_ranges, p.1.1 = o → p.1.2.1 = t → p.1.2.2.2 = i →
      EdgeManager.get s o t i = some p.1.2.2.1)
    (hr : ∀ p ∈ s.reversed_edge_ranges, p.1.1 = i → p.1.2.1 = t → p.1.2.2.2 = o →
      EdgeManager.get s o t i = some p.1.2.2.1) :
    EdgeManager.get (EdgeManager.set s o t i d) o t i = some d ∧
    (((o, t, d, i) : K4), ()) ∈ (EdgeManager.set s o t i d).edge_ranges ∧
    (((i, t, d, o) : K4), ()) ∈ (EdgeManager.set s o t i d).reversed_edge_ranges ∧
    ∀ d', d' ≠ d →
      (((o, t, d', i) : K4), ()) ∉ (EdgeManager.set s o t i d).edge_ranges ∧
      (((i, t, d', o) : K4), ()) ∉ (EdgeManager.set s o t i d).reversed_edge_ranges :=
  edgeSet_index s o t i d hf hr

/-- Claim C1 as stated is false on an arbitrary store: after
`set(0,0,1,5)` on a store holding the stray forward row `(0,0,9,1)`, a
forward index row for the edge `(0,0,1)` with datetime `9 ≠ 5` still
exists. -/
theorem claim_C1_cex :
    (((0, 0, 9, 1) : K4), ()) ∈ (EdgeManager.set strayStore 0 0 1 5).edge_ranges ∧
    ((9 : Nat) ≠ 5) := by decide

/-- Witness for claim C1 at `oneEdgeStore`. -/
theorem claim_C1_witness :
    (∀ p ∈ oneEdgeStore.edge_ranges, p.1.1 = 1 → p.1.2.1 = 2 → p.1.2.2.2 = 3 →
      EdgeManager.get oneEdgeStore 1 2 3 = some p.1.2.2.1) ∧
    EdgeManager.get (EdgeManager.set oneEdgeStore 1 2 3 9) 1 2 3 = some 9 ∧
    (((1, 2, 9, 3) : K4), ()) ∈ (EdgeManager.set oneEdgeStore 1 2 3 9).edge_ranges ∧
    (((3, 2, 9, 1) : K4), ()) ∈
      (EdgeManager.set oneEdgeStore 1 2 3 9).reversed_edge_ranges ∧
    ∀ d', d' ≠ 9 →
      (((1, 2, d', 3) : K4), ()) ∉ (EdgeManager.set oneEdgeStore 1 2 3 9).edge_ranges ∧
      (((3, 2, d', 1) : K4), ()) ∉
        (EdgeManager.set oneEdgeStore 1 2 3 9).reversed_edge_ranges :=
  ⟨by decide, claim_C1 oneEdgeStore 1 2 3 9 (by decide) (by decide)⟩

/-- Claim C2 (amended): on a sorted tree,
`iterate_for_range(id, Some t, Some h)` seeks to `(id, t, h)` and takes
rows while the key prefix is `(id, t)`, yielding exactly the index rows
with prefix `(id, t)` whose `update_datetime` is greater than or equal to
`h`, in ascending key order. -/
theorem claim_C2 (tr : List (K4 × Unit)) (hs : TreeSorted ltK4 tr) (id t h : Nat) :
    EdgeRangeManager.iterateForRange tr id (some t) (some h) =
      (tr.map (·.1)).filter
        (fun k => decide (k.1 = id ∧ k.2.1 = t ∧ h ≤ k.2.2.1)) :=
  iterateForRange_typed_eq tr hs id t h

/-- Claim C2 as stated is false: the row `(0,0,5,0)` has prefix `(0,0)`
and datetime `5 ≤ 7`, yet `iterate_for_range(0, Some 0, Some 7)` yields
nothing (the scan starts at the seek key `(0,0,7)` and runs upward). -/
theorem claim_C2_cex :
    EdgeRangeManager.iterateForRange [(((0, 0, 5, 0) : K4), ())] 0 (some 0) (some 7)
      = [] ∧
    (((0, 0, 5, 0) : K4), ()) ∈ [(((0, 0, 5, 0) : K4), ())] ∧
    ((0 : Nat) = 0 ∧ (0 : Nat) = 0 ∧ (5 : Nat) ≤ 7) := by decide

/-- Witness for claim C2 at `rangeTree`. -/
theorem claim_C2_witness :
    TreeSorted ltK4 rangeTree ∧
    EdgeRangeManager.iterateForRange rangeTree 1 (some 5) (some 4) =
      (rangeTree.map (·.1)).filter
        (fun k => decide (k.1 = 1 ∧ k.2.1 = 5 ∧ 4 ≤ k.2.2.1)) :=
  ⟨by decide, claim_C2 rangeTree (by decide) 1 5 4⟩

/-- Claim C3: on a store satisfying the cross-entity invariants of the
data model, `VertexManager.delete(v)` leaves exactly the store with every
row mentioning `v` in a UUID position removed from all six trees, all
other rows unchanged. -/
theorem claim_C3 (s : SledHolder) (v : Nat) (hinv : RangesInv s) :
    VertexManager.delete s v = pruneV s v :=
  vertexDelete_eq_prune s v hinv

/-- Witness for claim C3 at `cascadeStore`. -/
theorem claim_C3_witness :
    RangesInv cascadeStore ∧
    VertexManager.delete cascadeStore 1 = pruneV cascadeStore 1 :=
  ⟨by decide, claim_C3 cascadeStore 1 (by decide)⟩

/-- Claim C4: after `EdgeManager.delete(o,t,i,d)` the edges tree has no
key `(o,t,i)`, the forward tree no `(o,t,d,i)`, the reversed tree no
`(i,t,d,o)`, the edge-property tree no key with prefix `(o,t,i)`, and
every other row of every tree is unchanged. -/
theorem claim_C4 (s : SledHolder) (o t i d : Nat) :
    kvGet (EdgeManager.key o t i) (EdgeManager.delete s o t i d).edges = none ∧
    (((o, t, d, i) : K4), ()) ∉ (EdgeManager.delete s o t i d).edge_ranges ∧
    (((i, t, d, o) : K4), ()) ∉ (EdgeManager.delete s o t i d).reversed_edge_ranges ∧
    (∀ p ∈ (EdgeManager.delete s o t i d).edge_properties,
      ¬ (p.1.1 = o ∧ p.1.2.1 = t ∧ p.1.2.2.1 = i)) ∧
    (EdgeManager.delete s o t i d).db = s.db ∧
    (EdgeManager.delete s o t i d).vertex_properties = s.vertex_properties ∧
    (EdgeManager.delete s o t i d).edges = kvRemove (EdgeManager.key o t i) s.edges ∧
    (EdgeManager.delete s o t i d).edge_ranges =
      kvRemove (EdgeRangeManager.key o t d i) s.edge_ranges ∧
    (EdgeManager.delete s o t i d).reversed_edge_ranges =
      kvRemove (EdgeRangeManager.key i t d o) s.reversed_edge_ranges ∧
    (EdgeManager.delete s o t i d).edge_properties =
      s.edge_properties.filter
        (fun p => decide (¬ (p.1.1 = o ∧ p.1.2.1 = t ∧ p.1.2.2.1 = i))) := by
  rw [edgeDelete_eq]
  refine ⟨kvGet_kvRemove_self _ _, ?_, ?_, ?_, rfl, rfl, rfl, rfl, rfl, rfl⟩
  · intro hmem
    exact (mem_kvRemove.mp hmem).2 rfl
  · intro hmem
    exact (mem_kvRemove.mp hmem).2 rfl
  · intro p hp
    exact of_decide_eq_true (List.mem_filter.mp hp).2

/-- Claim C5: on a well-formed (sorted) store, executing
`EdgeManager.set(o,t,i,d)` twice in succession leaves the store
byte-identical to executing it once. -/
theorem claim_C5 (s : SledHolder) (o t i d : Nat)
    (hE : TreeSorted ltK3 s.edges) (hF : TreeSorted ltK4 s.edge_ranges)
    (hR : TreeSorted ltK4 s.reversed_edge_ranges) :
    EdgeManager.set (EdgeManager.set s o t i d) o t i d =
      EdgeManager.set s o t i d :=
  edgeSet_set_eq_set s o t i d hE hF hR

/-- Witness for claim C5 at `oneEdgeStore`. -/
theorem claim_C5_witness :
    TreeSorted ltK3 oneEdgeStore.edges ∧
    TreeSorted ltK4 oneEdgeStore.edge_ranges ∧
    TreeSorted ltK4 oneEdgeStore.reversed_edge_ranges ∧
    EdgeManager.set (EdgeManager.set oneEdgeStore 1 2 3 9) 1 2 3 9 =
      EdgeManager.set oneEdgeStore 1 2 3 9 :=
  ⟨by decide, by decide, by decide,
    claim_C5 oneEdgeStore 1 2 3 9 (by decide) (by decide) (by decide)⟩

/-- Claim C6 (amended): on a sorted tree,
`iterate_for_range(id, Some t, Some MIN_DATETIME)` yields the whole
`(id, t)` block — every stored datetime is `≥ MIN_DATETIME`, so the seek
lands at the start of the block and nothing is excluded. -/
theorem claim_C6 (tr : List (K4 × Unit)) (hs : TreeSorted ltK4 tr) (id t : Nat) :
    EdgeRangeManager.iterateForRange tr id (some t) (some MIN_DATETIME) =
      (tr.map (·.1)).filter (fun k => decide (k.1 = id ∧ k.2.1 = t)) :=
  iterateForRange_min_eq tr hs id t

/-- Claim C6 as stated is false: with `high = MIN_DATETIME` the
typed-bounded mode yields the row `(0,0,5,0)` rather than nothing. -/
theorem claim_C6_cex :
    EdgeRangeManager.iterateForRange [(((0, 0, 5, 0) : K4), ())] 0 (some 0)
      (some MIN_DATETIME) ≠ [] := by decide

/-- Witness for claim C6 at `rangeTree`. -/
theorem claim_C6_witness :
    TreeSorted ltK4 rangeTree ∧
    EdgeRangeManager.iterateForRange rangeTree 1 (some 5) (some MIN_DATETIME) =
      (rangeTree.map (·.1)).filter (fun k => decide (k.1 = 1 ∧ k.2.1 = 5)) :=
  ⟨by decide, claim_C6 rangeTree (by decide) 1 5⟩

/-- Claim C7: `iterate_for_range(id, Some t, None)` yields exactly the
same rows as `iterate_for_range(id, Some t, Some MAX_DATETIME)` — the
source defaults a missing `high` to `MAX_DATETIME`. -/
theorem claim_C7 (tr : List (K4 × Unit)) (id t : Nat) :
    EdgeRangeManager.iterateForRange tr id (some t) none =
      EdgeRangeManager.iterateForRange tr id (some t) (some MAX_DATETIME) := rfl

/-- Claim C8: on a sorted tree, `iterate_for_range(id, None, Some h)`
yields exactly the rows of the prefix scan on `id` whose decoded
`update_datetime` is `≤ h`, filtered in memory after decoding, preserving
the ascending key order of the underlying scan. -/
theorem claim_C8 (tr : List (K4 × Unit)) (hs : TreeSorted ltK4 tr) (id h : Nat) :
    EdgeRangeManager.iterateForRange tr id none (some h) =
      ((tr.map (·.1)).filter (fun k => decide (k.1 = id))).filter
        (fun k => decide (k.2.2.1 ≤ h)) :=
  iterateForRange_none_some_eq tr hs id h

/-- Witness for claim C8 at `rangeTree`. -/
theorem claim_C8_witness :
    TreeSorted ltK4 rangeTree ∧
    EdgeRangeManager.iterateForRange rangeTree 1 none (some 6) =
      ((rangeTree.map (·.1)).filter (fun k => decide (k.1 = 1))).filter
        (fun k => decide (k.2.2.1 ≤ 6)) :=
  ⟨by decide, claim_C8 rangeTree (by decide) 1 6⟩

/-- Claim C9 (amended): in a cascade delete, an error reported by a KV
write or by a property-scan iterator step stops the cascade at that
operation and is returned to the caller (the returned error is the one
reported by the last-attempted underlying operation and nothing after it
runs), and the deletions already performed are not rolled back — in
particular the initial row removal persists whenever its operation
succeeded, whatever happens later.  An error reported by an edge-range
iterator step, however, silently terminates that scan (`take_while`
treats the `Err` item as end of data), so the cascade can return `Ok`
without surfacing it. -/
theorem claim_C9 (sch : Sched) (s : SledHolder) (id o t i d : Nat) :
    (∀ e st', VertexManager.deleteM sch id ⟨s, 0⟩ = (Except.error e, st') →
      0 < st'.ctr ∧ sch (st'.ctr - 1) = some e) ∧
    (∀ r st', VertexManager.deleteM sch id ⟨s, 0⟩ = (r, st') →
      st'.hold.db =
        if sch 0 = none then kvRemove (VertexManager.key id) s.db else s.db) ∧
    (∀ e st', EdgeManager.deleteM sch o t i d ⟨s, 0⟩ = (Except.error e, st') →
      0 < st'.ctr ∧ sch (st'.ctr - 1) = some e) ∧
    (∀ r st', EdgeManager.deleteM sch o t i d ⟨s, 0⟩ = (r, st') →
      st'.hold.edges =
        if sch 0 = none then kvRemove (EdgeManager.key o t i) s.edges else s.edges) :=
  ⟨fun e st' h => vertexDeleteM_errSpec sch id ⟨s, 0⟩ e st' h,
   fun r st' h => vertexDeleteM_db sch id ⟨s, 0⟩ r st' h,
   fun e st' h => edgeDeleteM_errSpec sch o t i d ⟨s, 0⟩ e st' h,
   fun r st' h => edgeDeleteM_edges sch o t i d ⟨s, 0⟩ r st' h⟩

/-- Claim C9 as stated is false: on `errStore` under `schIter`, the first
forward edge-range iterator fetch (operation 1, attempted since the final
counter is 2) reports error `99`, yet `VertexManager.delete` returns `Ok`
and the edge row survives — the iterator error is not returned to the
caller. -/
theorem claim_C9_cex :
    (VertexManager.deleteM schIter 7 ⟨errStore, 0⟩).1 = Except.ok () ∧
    schIter 1 = some 99 ∧
    (VertexManager.deleteM schIter 7 ⟨errStore, 0⟩).2.ctr = 2 ∧
    (((7, 0, 8) : K3), 1) ∈
      (VertexManager.deleteM schIter 7 ⟨errStore, 0⟩).2.hold.edges :=
  ⟨rfl, rfl, rfl, by decide⟩

/-- Witness for claim C9 at `errStore` under `schFirst`. -/
theorem claim_C9_witness :
    (0 < (⟨errStore, 1⟩ : MState).ctr ∧
      schFirst ((⟨errStore, 1⟩ : MState).ctr - 1) = some 42) ∧
    ((⟨errStore, 1⟩ : MState).hold.db =
      if schFirst 0 = none then kvRemove (VertexManager.key 7) errStore.db
      else errStore.db) :=
  ⟨(claim_C9 schFirst errStore 7 7 0 8 1).1 42 ⟨errStore, 1⟩ rfl,
   (claim_C9 schFirst errStore 7 7 0 8 1).2.1 (Except.error 42) ⟨errStore, 1⟩ rfl⟩

/-- Claim C10: `VertexManager.exists` returns exactly `is_some` of the
same point lookup that `VertexManager.get` decodes, so
`exists(id) = true` iff `get(id)` returns `Some`. -/
theorem claim_C10 (s : SledHolder) (id : Nat) :
    VertexManager.exists_ s id = (VertexManager.get s id).isSome ∧
    (VertexManager.exists_ s id = true ↔ ∃ tv, VertexManager.get s id = some tv) := by
  refine ⟨rfl, ?_⟩
  rw [show VertexManager.exists_ s id = (VertexManager.get s id).isSome from rfl]
  exact Option.isSome_iff_exists
